import Mathlib

/-!
Verification of the Xoom spatial core (BSP builder, visibility solver,
collision detector) against its specification.

The Python source under src/core and src/utils is shallowly embedded over
exact rationals.  Python floats become the rationals the same arithmetic
expressions denote; the irrational library functions the code calls
(math.sqrt / math.hypot, math.atan2, math.cos, math.sin, math.pi and the
degree-to-radian factor pi/180) are abstracted as explicit oracle
parameters, so every definition stays computable and every concrete
instance can be evaluated by the kernel.  Theorems quantify over the
oracles, adding only the consistency facts a given claim needs.

Conventions:
* Python None on an optional child or field becomes Option / a dedicated
  empty constructor.
* Segment.original_segment defaults to the segment itself in Python
  (a cyclic reference).  The spec guarantees original chains are at most
  one hop long, so a Segment here is a core record plus an optional
  original core; originalCore = none stands for the self reference.
  Unused portal metadata fields (portal_section, portal_h*, wall_type,
  portal_sections) are omitted: no embedded routine reads them.
* dataclass equality in Python ignores original_segment; the DecidableEq
  instances here compare every field.  No embedded routine compares
  segments, so this only affects how theorems about concrete values are
  stated.
-/

namespace Xoom

/-- Immutable 2D point / vector, from core/_types.py (class Vec2). -/
structure Vec2 where
  x : ℚ
  y : ℚ
deriving DecidableEq, Repr

/-- The value fields of a wall segment, from core/_types.py (class Segment),
without the original_segment back reference. -/
structure SegCore where
  a : Vec2
  b : Vec2
  interiorFacing : Option Bool
  uOffset : ℚ
  textureName : Option String
  height : Option ℚ
  polygonName : Option String
  blocksCollision : Bool
deriving DecidableEq, Repr

/-- A wall segment: its field values plus the original_segment back
reference (none = the Python self reference set by __post_init__). -/
structure Segment where
  core : SegCore
  originalCore : Option SegCore
deriving DecidableEq, Repr

def Segment.a (s : Segment) : Vec2 := s.core.a

def Segment.b (s : Segment) : Vec2 := s.core.b

def Segment.interiorFacing (s : Segment) : Option Bool := s.core.interiorFacing

def Segment.uOffset (s : Segment) : ℚ := s.core.uOffset

def Segment.blocksCollision (s : Segment) : Bool := s.core.blocksCollision

/-- The segment the original_segment reference denotes (self when none). -/
def Segment.orig (s : Segment) : SegCore := s.originalCore.getD s.core

/-- Segment(a, b, interior_facing) with every other argument left at its
dataclass default, as split_segment constructs its two halves. -/
def mkSegmentDefault (a b : Vec2) (ifc : Option Bool) : Segment :=
  ⟨⟨a, b, ifc, 0, none, none, none, true⟩, none⟩

/-- seg.replace(a=pa, b=pb): a dataclass copy with new endpoints.  The copy
carries the value of the original_segment reference, which __post_init__
keeps because it is not None. -/
def Segment.replaceAB (s : Segment) (pa pb : Vec2) : Segment :=
  ⟨⟨pa, pb, s.core.interiorFacing, s.core.uOffset, s.core.textureName,
    s.core.height, s.core.polygonName, s.core.blocksCollision⟩, some s.orig⟩

/-- seg.replace() with no arguments: a plain dataclass copy.  The copy's
original_segment is the value the source segment's reference denotes. -/
def Segment.replaceSelf (s : Segment) : Segment := ⟨s.core, some s.orig⟩

/-! ### utils/math_utils.py -/

/-- line_side: positive when p is to the left of the directed line a-b,
negative to the right, zero on the line. -/
def lineSide (p a b : Vec2) : ℚ :=
  (b.x - a.x) * (p.y - a.y) - (b.y - a.y) * (p.x - a.x)

/-- split_segment: splits seg by the infinite line (a, b) when the endpoints
lie strictly on opposite sides; otherwise the whole segment goes to the
front list (both sides nonnegative) or to the back list. -/
def splitSegment (seg : Segment) (a b : Vec2) : List Segment × List Segment :=
  let fromPoint := lineSide seg.a a b
  let toPoint := lineSide seg.b a b
  if 0 ≤ fromPoint ∧ 0 ≤ toPoint then ([seg], [])
  else if fromPoint ≤ 0 ∧ toPoint ≤ 0 then ([], [seg])
  else
    let denom := (seg.b.x - seg.a.x) * (b.y - a.y) - (seg.b.y - seg.a.y) * (b.x - a.x)
    if denom = 0 then ([seg], [])
    else
      let t := ((a.x - seg.a.x) * (b.y - a.y) - (a.y - seg.a.y) * (b.x - a.x)) / denom
      let inter : Vec2 := ⟨seg.a.x + t * (seg.b.x - seg.a.x), seg.a.y + t * (seg.b.y - seg.a.y)⟩
      let frontSeg := mkSegmentDefault seg.a inter seg.interiorFacing
      let backSeg := mkSegmentDefault inter seg.b seg.interiorFacing
      if 0 < fromPoint then ([frontSeg], [backSeg]) else ([backSeg], [frontSeg])

/-! ### core/bsp.py -/

/-- BSP tree node.  The constructor empty stands both for a Python None
child and for the bare BSPNode() a guard returns; BSPNode() itself is
node none [] empty empty.  The map_data back reference is always None in
the embedded code paths and is omitted. -/
inductive BSPNode where
  | empty : BSPNode
  | node (partition : Option Segment) (coplanar : List Segment)
      (front : BSPNode) (back : BSPNode) : BSPNode
deriving DecidableEq, Repr

def BSPNode.coplanarOf : BSPNode → List Segment
  | .empty => []
  | .node _ cop _ _ => cop

def BSPNode.frontOf : BSPNode → BSPNode
  | .empty => .empty
  | .node _ _ f _ => f

def BSPNode.backOf : BSPNode → BSPNode
  | .empty => .empty
  | .node _ _ _ b => b

/-- The classification loop of BSPBuilder._build_recursive over the
segments other than the chosen partition, returning (front list, back
list).  The Python loop also has a branch appending a segment to the
coplanar list when split_segment returns the pair (None, None); since
split_segment always returns a pair of lists and the test is an identity
test against None, that branch is a constant-false conditional and adds
nothing, so the embedding carries no coplanar output here. -/
def classifyAgainst (partition : Segment) (rest : List Segment) :
    List Segment × List Segment :=
  match rest with
  | [] => ([], [])
  | s :: tl =>
    let (fr, bk) := classifyAgainst partition tl
    let (frontParts, backParts) := splitSegment s partition.a partition.b
    ((frontParts.map fun part => s.replaceAB part.a part.b) ++ fr,
     (backParts.map fun part => s.replaceAB part.a part.b) ++ bk)

/-- BSPBuilder._build_recursive with the depth guard carried as structural
fuel: gas = maxDepth + 1 - depth, so gas = 0 exactly when depth > maxDepth.
The partition (strategy "first") is the list head; the node's coplanar list
ends up holding exactly the partition's plain copy. -/
def buildRecursive : List Segment → Nat → BSPNode
  | _, 0 => .node none [] .empty .empty
  | [], _ + 1 => .node none [] .empty .empty
  | partition :: rest, gas + 1 =>
    let (frontList, backList) := classifyAgainst partition rest
    BSPNode.node (some partition) [partition.replaceSelf]
      (if frontList = [] then .empty else buildRecursive frontList gas)
      (if backList = [] then .empty else buildRecursive backList gas)

/-- BSPBuilder(max_depth, strategy="first").build(segs). -/
def bspBuild (maxDepth : Nat) (segs : List Segment) : BSPNode :=
  buildRecursive segs (maxDepth + 1)

/-- All segments stored in the tree's coplanar lists, by full traversal. -/
def treeSegments : BSPNode → List Segment
  | .empty => []
  | .node _ cop f b => cop ++ treeSegments f ++ treeSegments b

/-! ### core/collision.py

math.sqrt and math.hypot are abstracted as a parameter rsqrt : Q -> Q
(hypot(x, y) = sqrt(x*x + y*y)); theorems state the square-root facts they
need about the values rsqrt is applied to. -/

/-- Python min(xs, key) for a nonempty list: the first element attaining
the minimum key (later elements replace only on strictly smaller key). -/
def minByKey (key : α → ℚ) : List α → Option α
  | [] => none
  | x :: xs => some (xs.foldl (fun m y => if key y < key m then y else m) x)

/-- CollisionDetector.moving_circle_point_collision: the moving circle
against a fixed point, a quadratic in the sweep parameter t. -/
def movingCirclePointCollision (rsqrt : ℚ → ℚ) (p1 p2 point : Vec2)
    (radius : ℚ) : Option Vec2 :=
  let dx := p2.x - p1.x
  let dy := p2.y - p1.y
  let fx := p1.x - point.x
  let fy := p1.y - point.y
  let a := dx * dx + dy * dy
  let b := 2 * (fx * dx + fy * dy)
  let c := fx * fx + fy * fy - radius * radius
  let disc := b * b - 4 * a * c
  if disc < 0 ∨ a = 0 then none
  else
    let discS := rsqrt disc
    let t1 := (-b - discS) / (2 * a)
    let t2 := (-b + discS) / (2 * a)
    if 0 ≤ t1 ∧ t1 ≤ 1 then some ⟨p1.x + dx * t1, p1.y + dy * t1⟩
    else if 0 ≤ t2 ∧ t2 ≤ 1 then some ⟨p1.x + dx * t2, p1.y + dy * t2⟩
    else none

/-- One pass of the normal-sign loop in segment_moving_circle_collision:
the crossing of the offset line for one choice of outward normal. -/
def edgeCandidate (rsqrt : ℚ → ℚ) (p1 p2 q1 q2 : Vec2) (radius normalSign : ℚ) :
    Option Vec2 :=
  let d : Vec2 := ⟨p2.x - p1.x, p2.y - p1.y⟩
  let segLen2 := (q2.x - q1.x) * (q2.x - q1.x) + (q2.y - q1.y) * (q2.y - q1.y)
  let nx0 := normalSign * (-(q2.y - q1.y))
  let ny0 := normalSign * (q2.x - q1.x)
  let nlen := rsqrt (nx0 * nx0 + ny0 * ny0)
  if nlen = 0 then none
  else
    let nx := nx0 / nlen
    let ny := ny0 / nlen
    let dist0 := (p1.x - q1.x) * nx + (p1.y - q1.y) * ny
    let dist1 := (p2.x - q1.x) * nx + (p2.y - q1.y) * ny
    if (dist0 > radius ∧ dist1 < radius) ∨ (dist0 < -radius ∧ dist1 > -radius) then
      let t := (dist0 - radius) / (dist0 - dist1)
      if 0 ≤ t ∧ t ≤ 1 then
        let colX := p1.x + d.x * t
        let colY := p1.y + d.y * t
        let proj := ((colX - q1.x) * (q2.x - q1.x) + (colY - q1.y) * (q2.y - q1.y)) / segLen2
        if 0 ≤ proj ∧ proj ≤ 1 then some ⟨colX, colY⟩ else none
      else none
    else none

/-- The candidate contact points segment_moving_circle_collision gathers in
col_points, in append order: both normal signs, then both endpoints. -/
def colPoints (rsqrt : ℚ → ℚ) (p1 p2 q1 q2 : Vec2) (radius : ℚ) : List Vec2 :=
  (edgeCandidate rsqrt p1 p2 q1 q2 radius 1).toList ++
    (edgeCandidate rsqrt p1 p2 q1 q2 radius (-1)).toList ++
    (movingCirclePointCollision rsqrt p1 p2 q1 radius).toList ++
    (movingCirclePointCollision rsqrt p1 p2 q2 radius).toList

/-- CollisionDetector.segment_moving_circle_collision: the moving circle
against the segment q1-q2, returning the candidate nearest to p1. -/
def segmentMovingCircleCollision (rsqrt : ℚ → ℚ) (p1 p2 q1 q2 : Vec2)
    (radius : ℚ) : Option Vec2 :=
  let segLen2 := (q2.x - q1.x) * (q2.x - q1.x) + (q2.y - q1.y) * (q2.y - q1.y)
  if segLen2 = 0 then movingCirclePointCollision rsqrt p1 p2 q1 radius
  else
    minByKey (fun p => (p.x - p1.x) ^ 2 + (p.y - p1.y) ^ 2)
      (colPoints rsqrt p1 p2 q1 q2 radius)

/-- CollisionDetector.is_between with its default margin 2. -/
def isBetween (a b p : Vec2) (margin : ℚ) : Bool :=
  decide (min a.x b.x - margin ≤ p.x ∧ p.x ≤ max a.x b.x + margin ∧
    min a.y b.y - margin ≤ p.y ∧ p.y ≤ max a.y b.y + margin)

/-- The traverse closure of find_first_collision: the (point, segment)
candidates gathered over the BSP, in visit order.  A node is entered only
when it exists and has a partition; the sweep descends one side when start
and endPt agree on it and both sides otherwise. -/
def collectCollisions (rsqrt : ℚ → ℚ) (start endPt : Vec2) (radius : ℚ) :
    BSPNode → List (Vec2 × Segment)
  | .empty => []
  | .node none _ _ _ => []
  | .node (some part) cop f b =>
    let here := cop.filterMap fun seg =>
      match segmentMovingCircleCollision rsqrt start endPt seg.a seg.b radius with
      | none => none
      | some pt => if isBetween start endPt pt 2 then some (pt, seg) else none
    let sideStart := lineSide start part.a part.b
    let sideEnd := lineSide endPt part.a part.b
    here ++
      (if 0 ≤ sideStart ∧ 0 ≤ sideEnd then collectCollisions rsqrt start endPt radius f
       else if sideStart ≤ 0 ∧ sideEnd ≤ 0 then collectCollisions rsqrt start endPt radius b
       else collectCollisions rsqrt start endPt radius f ++
         collectCollisions rsqrt start endPt radius b)

/-- CollisionDetector.find_first_collision.  The pair returned is (the
contact point or none, the value of last_collided_segment after the call).
prevLast is the field's value before the call; the body overwrites it
before any test, so the result never depends on it. -/
def findFirstCollision (rsqrt : ℚ → ℚ) (prevLast : Option Segment)
    (root : BSPNode) (start endPt : Vec2) (radius : ℚ) :
    Option Vec2 × Option Segment :=
  let _ := prevLast
  let collisions := collectCollisions rsqrt start endPt radius root
  match minByKey (fun pr => (pr.1.x - start.x) ^ 2 + (pr.1.y - start.y) ^ 2) collisions with
  | none => (none, none)
  | some (pt, seg) => (some pt, some seg)

/-- Bisection step for the integer square root, on structural fuel so the
kernel can evaluate it: invariant lo * lo <= n < hi * hi. -/
def sqrtBisect (n : Nat) : Nat → Nat → Nat → Nat
  | 0, lo, _ => lo
  | fuel + 1, lo, hi =>
    let mid := (lo + hi) / 2
    if mid = lo then lo
    else if mid * mid ≤ n then sqrtBisect n fuel mid hi
    else sqrtBisect n fuel lo mid

/-- Integer square root (floor), exact for every n below 2 ^ 64. -/
def intSqrt (n : Nat) : Nat := sqrtBisect n 64 0 (n + 1)

/-- A concrete square-root oracle for evaluating the embedding on inputs
whose square roots are natural numbers: exact there, and only used at
such inputs in the concrete theorems below. -/
def ratSqrt (q : ℚ) : ℚ := (intSqrt q.num.toNat : ℚ)

/-! ### core/visibility.py

The viewer state read by the solver (player.pos, player.angle_rad,
player.fov_deg, player.fov_length), the class-level configuration
(clip_walls_to_fov, fov_margin_deg) and the transcendental library
functions are each gathered into one record. -/

/-- The viewer fields compute_visible_segments reads. -/
structure Player where
  pos : Vec2
  angleRad : ℚ
  fovDeg : ℚ
  fovLength : ℚ

/-- The VisibilityManager class attributes. -/
structure VisConfig where
  clipWallsToFov : Bool
  fovMarginDeg : ℚ

/-- The irrational library functions the solver calls, as oracle
parameters: atan2 y x, cos, sin, sqrt/hypot, math.pi, and the factor
pi / 180 of math.radians. -/
structure RealOracles where
  atan2 : ℚ → ℚ → ℚ
  cosQ : ℚ → ℚ
  sinQ : ℚ → ℚ
  rsqrt : ℚ → ℚ
  piQ : ℚ
  degRad : ℚ

/-- math.radians(x) = x * (pi / 180), with the factor abstracted. -/
def radiansQ (degRad x : ℚ) : ℚ := x * degRad

/-- The first while loop of _angle_diff (subtract 2*pi while d is above
pi), run on structural fuel. -/
def windDown (piQ : ℚ) : Nat → ℚ → ℚ
  | 0, d => d
  | n + 1, d => if piQ < d then windDown piQ n (d - 2 * piQ) else d

/-- The second while loop of _angle_diff (add 2*pi while d is below -pi). -/
def windUp (piQ : ℚ) : Nat → ℚ → ℚ
  | 0, d => d
  | n + 1, d => if d < -piQ then windUp piQ n (d + 2 * piQ) else d

/-- Fuel that dominates the iteration count of either while loop whenever
piQ is positive, so the fueled loops return exactly what the source loops
return. -/
def windFuel (piQ d : ℚ) : Nat := (Int.ceil (|d| / (2 * piQ))).toNat + 1

/-- VisibilityManager._angle_diff: the difference a - b brought into
[-pi, pi] by the two while loops. -/
def angleDiff (piQ a b : ℚ) : ℚ :=
  let d := a - b
  let d1 := windDown piQ (windFuel piQ d) d
  windUp piQ (windFuel piQ d1) d1

/-- The signed angle of p relative to the viewer facing, as the solver
computes it: _angle_diff(atan2(p - pos), ang). -/
def endpointAngle (O : RealOracles) (pos : Vec2) (ang : ℚ) (p : Vec2) : ℚ :=
  angleDiff O.piQ (O.atan2 (p.y - pos.y) (p.x - pos.x)) ang

/-- VisibilityManager._lerp_vec2. -/
def lerpVec2 (a b : Vec2) (t : ℚ) : Vec2 :=
  ⟨a.x + (b.x - a.x) * t, a.y + (b.y - a.y) * t⟩

/-- VisibilityManager._interpolate_u_offset: project p onto the original
segment, flip the parameter for walls that are not interior facing, and
offset by the projected arc length. -/
def interpolateUOffset (rsqrt : ℚ → ℚ) (original : SegCore) (p : Vec2) : ℚ :=
  let dx := original.b.x - original.a.x
  let dy := original.b.y - original.a.y
  let length := rsqrt (dx * dx + dy * dy)
  if length = 0 then original.uOffset
  else
    let t := ((p.x - original.a.x) * dx + (p.y - original.a.y) * dy) / (length * length)
    let t := max 0 (min 1 t)
    let t := if original.interiorFacing = some true then t else 1 - t
    original.uOffset + t * length

/-- The dot product _is_segment_facing_player computes: the left normal
of the wall against the midpoint-to-player vector. -/
def facingDot (seg : Segment) (playerPos : Vec2) : ℚ :=
  let wallDx := seg.b.x - seg.a.x
  let wallDy := seg.b.y - seg.a.y
  let normalX := -wallDy
  let normalY := wallDx
  let midX := (seg.a.x + seg.b.x) / 2
  let midY := (seg.a.y + seg.b.y) / 2
  normalX * (playerPos.x - midX) + normalY * (playerPos.y - midY)

/-- VisibilityManager._is_segment_facing_player: dot of the left normal
with the midpoint-to-player vector, compared with interior_facing.  The
Python comparison (dot > 0) == interior_facing is False when the flag is
None. -/
def isSegmentFacingPlayer (seg : Segment) (playerPos : Vec2) : Bool :=
  decide (seg.interiorFacing = some (decide (0 < facingDot seg playerPos)))

/-- VisibilityManager._segment_intersection: line-line intersection of
p1-p2 with q1-q2, with p1 returned for parallel lines. -/
def segmentIntersection (p1 p2 q1 q2 : Vec2) : Vec2 :=
  let dx1 := p2.x - p1.x
  let dy1 := p2.y - p1.y
  let dx2 := q2.x - q1.x
  let dy2 := q2.y - q1.y
  let denom := dx1 * dy2 - dy1 * dx2
  if denom = 0 then p1
  else
    let t := ((q1.x - p1.x) * dy2 - (q1.y - p1.y) * dx2) / denom
    ⟨p1.x + t * dx1, p1.y + t * dy1⟩

/-- VisibilityManager._clip_poly_against_edge: Sutherland-Hodgman half
plane clip of a point list, the previous point wrapping around to the
list's last element. -/
def clipPolyAgainstEdge (poly : List Vec2) (a b : Vec2) : List Vec2 :=
  let inside := fun p => decide (0 ≤ lineSide p a b)
  let prevs := match poly with
    | [] => []
    | x :: _ => poly.getLastD x :: poly.dropLast
  (poly.zip prevs).foldl
    (fun out pr =>
      if inside pr.1 then
        if ¬ inside pr.2 then out ++ [segmentIntersection pr.2 pr.1 a b, pr.1]
        else out ++ [pr.1]
      else if inside pr.2 then out ++ [segmentIntersection pr.2 pr.1 a b]
      else out)
    []

/-- VisibilityManager._clip_segment_to_triangle_multi: clip the segment
against the three triangle edges in order; zero, one, two or (defensively)
more output segments. -/
def clipSegmentToTriangleMulti (seg : Segment) (tri : Vec2 × Vec2 × Vec2) :
    List Segment :=
  let poly1 := clipPolyAgainstEdge [seg.a, seg.b] tri.1 tri.2.1
  if poly1.length < 2 then []
  else
    let poly2 := clipPolyAgainstEdge poly1 tri.2.1 tri.2.2
    if poly2.length < 2 then []
    else
      let poly3 := clipPolyAgainstEdge poly2 tri.2.2 tri.1
      if poly3.length < 2 then []
      else
        match poly3 with
        | [p0, p1] => [seg.replaceAB p0 p1]
        | [p0, p1, p2] => [seg.replaceAB p0 p1, seg.replaceAB p1 p2]
        | _ => (poly3.zip poly3.tail).map fun pr => seg.replaceAB pr.1 pr.2

/-- The FOV triangle of compute_visible_segments: viewer position and the
two FOV edge points at distance maxDist. -/
def fovTriangle (O : RealOracles) (pos : Vec2) (ang half maxDist : ℚ) :
    Vec2 × Vec2 × Vec2 :=
  (pos,
   ⟨pos.x + O.cosQ (ang - half) * maxDist, pos.y + O.sinQ (ang - half) * maxDist⟩,
   ⟨pos.x + O.cosQ (ang + half) * maxDist, pos.y + O.sinQ (ang + half) * maxDist⟩)

/-- VisibilityManager._point_in_fov. -/
def pointInFov (O : RealOracles) (p pos : Vec2) (ang half maxD2 : ℚ) : Bool :=
  let dx := p.x - pos.x
  let dy := p.y - pos.y
  if maxD2 < dx * dx + dy * dy then false
  else decide (|angleDiff O.piQ (O.atan2 dy dx) ang| ≤ half)

/-- VisibilityManager._seg_min_dist2_to_point. -/
def segMinDist2ToPoint (seg : Segment) (p : Vec2) : ℚ :=
  let vx := seg.b.x - seg.a.x
  let vy := seg.b.y - seg.a.y
  let wx := p.x - seg.a.x
  let wy := p.y - seg.a.y
  let c1 := vx * wx + vy * wy
  if c1 ≤ 0 then (p.x - seg.a.x) ^ 2 + (p.y - seg.a.y) ^ 2
  else
    let c2 := vx * vx + vy * vy
    if c2 ≤ c1 then (p.x - seg.b.x) ^ 2 + (p.y - seg.b.y) ^ 2
    else
      let t := c1 / c2
      (p.x - (seg.a.x + t * vx)) ^ 2 + (p.y - (seg.a.y + t * vy)) ^ 2

/-- VisibilityManager._point_in_triangle, by barycentric coordinates. -/
def pointInTriangle (p : Vec2) (tri : Vec2 × Vec2 × Vec2) : Bool :=
  let a := tri.1
  let b := tri.2.1
  let c := tri.2.2
  let v0x := c.x - a.x
  let v0y := c.y - a.y
  let v1x := b.x - a.x
  let v1y := b.y - a.y
  let v2x := p.x - a.x
  let v2y := p.y - a.y
  let dot00 := v0x * v0x + v0y * v0y
  let dot01 := v0x * v1x + v0y * v1y
  let dot02 := v0x * v2x + v0y * v2y
  let dot11 := v1x * v1x + v1y * v1y
  let dot12 := v1x * v2x + v1y * v2y
  let denom := dot00 * dot11 - dot01 * dot01
  if denom = 0 then false
  else
    let u := (dot11 * dot02 - dot01 * dot12) / denom
    let v := (dot00 * dot12 - dot01 * dot02) / denom
    decide (0 ≤ u ∧ 0 ≤ v ∧ u + v ≤ 1)

/-- VisibilityManager._on_segment. -/
def onSegmentB (a b c : Vec2) : Bool :=
  decide (min a.x c.x ≤ b.x ∧ b.x ≤ max a.x c.x ∧
    min a.y c.y ≤ b.y ∧ b.y ≤ max a.y c.y)

/-- VisibilityManager._segments_intersect. -/
def segmentsIntersect (a1 a2 b1 b2 : Vec2) : Bool :=
  let orient := fun (ax ay bx by_ cx cy : ℚ) =>
    (bx - ax) * (cy - ay) - (by_ - ay) * (cx - ax)
  let o1 := orient a1.x a1.y a2.x a2.y b1.x b1.y
  let o2 := orient a1.x a1.y a2.x a2.y b2.x b2.y
  let o3 := orient b1.x b1.y b2.x b2.y a1.x a1.y
  let o4 := orient b1.x b1.y b2.x b2.y a2.x a2.y
  if o1 = 0 ∧ o2 = 0 ∧ o3 = 0 ∧ o4 = 0 then
    onSegmentB a1 b1 a2 || onSegmentB a1 b2 a2 || onSegmentB b1 a1 b2 || onSegmentB b1 a2 b2
  else
    (decide (0 < o1) != decide (0 < o2)) && (decide (0 < o3) != decide (0 < o4))

/-- VisibilityManager._segment_intersects_triangle. -/
def segmentIntersectsTriangle (seg : Segment) (tri : Vec2 × Vec2 × Vec2) : Bool :=
  if pointInTriangle seg.a tri || pointInTriangle seg.b tri then true
  else
    segmentsIntersect seg.a seg.b tri.1 tri.2.1 ||
      segmentsIntersect seg.a seg.b tri.2.1 tri.2.2 ||
      segmentsIntersect seg.a seg.b tri.2.2 tri.1

/-- VisibilityManager._segment_in_fov. -/
def segmentInFov (O : RealOracles) (seg : Segment) (pos : Vec2)
    (ang half maxD2 : ℚ) (tri : Vec2 × Vec2 × Vec2) : Bool :=
  if pointInFov O seg.a pos ang half maxD2 || pointInFov O seg.b pos ang half maxD2 then
    true
  else if segmentIntersectsTriangle seg tri then
    decide (segMinDist2ToPoint seg pos ≤ maxD2)
  else false

/-- VisibilityManager._collect_bsp_order: near subtree, own coplanar
segments, far subtree; nodes without a partition contribute nothing. -/
def collectBspOrder (pos : Vec2) : BSPNode → List Segment
  | .empty => []
  | .node none _ _ _ => []
  | .node (some part) cop f b =>
    if 0 ≤ lineSide pos part.a part.b then
      collectBspOrder pos f ++ cop ++ collectBspOrder pos b
    else
      collectBspOrder pos b ++ cop ++ collectBspOrder pos f

/-- Python tuple order on intervals, for sorted(). -/
abbrev pairLex (p q : ℚ × ℚ) : Prop :=
  p.1 < q.1 ∨ (p.1 = q.1 ∧ p.2 ≤ q.2)

instance : IsTotal (ℚ × ℚ) pairLex :=
  ⟨fun p q => by
    rcases lt_trichotomy p.1 q.1 with h | h | h
    · exact Or.inl (Or.inl h)
    · rcases le_total p.2 q.2 with h2 | h2
      · exact Or.inl (Or.inr ⟨h, h2⟩)
      · exact Or.inr (Or.inr ⟨h.symm, h2⟩)
    · exact Or.inr (Or.inl h)⟩

instance : IsTrans (ℚ × ℚ) pairLex :=
  ⟨fun p q r hpq hqr => by
    rcases hpq with h | ⟨he, h2⟩ <;> rcases hqr with g | ⟨ge, g2⟩
    · exact Or.inl (h.trans g)
    · exact Or.inl (ge ▸ h)
    · exact Or.inl (he ▸ g)
    · exact Or.inr ⟨he.trans ge, h2.trans g2⟩⟩

/-- The loop of _subtract_intervals over the sorted covered list, with
curr the running left edge; the two break statements become early
returns. -/
def subtractGo (endQ : ℚ) : ℚ → List (ℚ × ℚ) → List (ℚ × ℚ)
  | curr, [] => if curr < endQ then [(curr, endQ)] else []
  | curr, (cstart, cend) :: rest =>
    if cend ≤ curr then subtractGo endQ curr rest
    else if endQ < cstart then (if curr < endQ then [(curr, endQ)] else [])
    else
      let piece := if curr < cstart then [(curr, min cstart endQ)] else []
      let curr2 := max curr cend
      if endQ ≤ curr2 then piece
      else piece ++ subtractGo endQ curr2 rest

/-- VisibilityManager._subtract_intervals: the parts of interval not
covered by any member of covered. -/
def subtractIntervals (interval : ℚ × ℚ) (covered : List (ℚ × ℚ)) :
    List (ℚ × ℚ) :=
  subtractGo interval.2 interval.1 (List.insertionSort pairLex covered)

/-- The merging loop of _merge_intervals, carrying the open last interval. -/
def mergeGo (eps lastS lastE : ℚ) : List (ℚ × ℚ) → List (ℚ × ℚ)
  | [] => [(lastS, lastE)]
  | (s, e) :: rest =>
    if s ≤ lastE + eps then mergeGo eps lastS (max lastE e) rest
    else (lastS, lastE) :: mergeGo eps s e rest

/-- VisibilityManager._merge_intervals with tolerance eps. -/
def mergeIntervals (intervals : List (ℚ × ℚ)) (eps : ℚ) : List (ℚ × ℚ) :=
  match List.insertionSort pairLex intervals with
  | [] => []
  | (s, e) :: rest => mergeGo eps s e rest

/-- The body of the `for clipped in clipped_list` loop of
compute_visible_segments for one clipped fragment: angular interval,
clamped to the margin-padded half FOV, minus the covered set; each
residual piece is emitted as a reconstructed fragment and added to the
covered set, which is then merged.  Each emitted fragment is paired with
the residual angular interval it was reconstructed at.  The source also
computes a value u1 from p1 that the constructed Segment does not use. -/
def processClipped (O : RealOracles) (pos : Vec2) (ang half marginRad : ℚ)
    (origSeg : Segment) (covered : List (ℚ × ℚ)) (clipped : Segment) :
    List (Segment × ℚ × ℚ) × List (ℚ × ℚ) :=
  let a0 := endpointAngle O pos ang clipped.a
  let a1 := endpointAngle O pos ang clipped.b
  let segStart := max (min a0 a1) (-half - marginRad)
  let segEnd := min (max a0 a1) (half + marginRad)
  if segEnd ≤ segStart then ([], covered)
  else
    let intervals := subtractIntervals (segStart, segEnd) covered
    if intervals = [] then ([], covered)
    else
      let ems := intervals.map fun iv =>
        let t0 := if a1 ≠ a0 then (iv.1 - a0) / (a1 - a0) else 0
        let t1 := if a1 ≠ a0 then (iv.2 - a0) / (a1 - a0) else 1
        let p0 := lerpVec2 clipped.a clipped.b t0
        let p1 := lerpVec2 clipped.a clipped.b t1
        let u0 := interpolateUOffset O.rsqrt origSeg.orig p0
        ((⟨⟨p0, p1, clipped.interiorFacing, u0, origSeg.orig.textureName,
            origSeg.orig.height, origSeg.orig.polygonName, true⟩,
           some origSeg.orig⟩ : Segment), iv.1, iv.2)
      (ems, mergeIntervals (covered ++ intervals) (1 / 100000))

/-- The clipped fragments of one source segment, processed in order while
threading the covered set. -/
def processClippedList (O : RealOracles) (pos : Vec2) (ang half marginRad : ℚ)
    (origSeg : Segment) : List Segment → List (ℚ × ℚ) →
    List (Segment × ℚ × ℚ) × List (ℚ × ℚ)
  | [], covered => ([], covered)
  | c :: cs, covered =>
    let (e1, cov1) := processClipped O pos ang half marginRad origSeg covered c
    let (e2, cov2) := processClippedList O pos ang half marginRad origSeg cs cov1
    (e1 ++ e2, cov2)

/-- The main loop of compute_visible_segments on the clipping path: facing
filter, FOV clip, then angular occlusion per clipped fragment.  Emitted
fragments keep the angular interval they were reconstructed at. -/
def processOrdered (O : RealOracles) (clip : Bool) (pos : Vec2)
    (ang half marginRad maxD2 : ℚ) (tri : Vec2 × Vec2 × Vec2) :
    List Segment → List (ℚ × ℚ) → List (Segment × ℚ × ℚ)
  | [], _ => []
  | seg :: rest, covered =>
    if ¬ isSegmentFacingPlayer seg pos then
      processOrdered O clip pos ang half marginRad maxD2 tri rest covered
    else
      let clippedList :=
        if clip then clipSegmentToTriangleMulti seg (tri)
        else if segmentInFov O seg pos ang half maxD2 tri then [seg] else []
      let (ems, covered2) :=
        processClippedList O pos ang half marginRad seg clippedList covered
      ems ++ processOrdered O clip pos ang half marginRad maxD2 tri rest covered2

/-- VisibilityManager.compute_visible_segments.  maxDistArg and clipToFov
are the optional arguments (None falls back to player.fov_length and the
class attribute).  The early-return path used when clipping is disabled
filters by facing and endpoint distance only; the clipping path maps the
instrumented loop down to its fragments. -/
def computeVisibleSegments (O : RealOracles) (cfg : VisConfig) (root : BSPNode)
    (player : Player) (maxDistArg : Option ℚ) (clipToFov : Option Bool) :
    List Segment :=
  let maxDist := maxDistArg.getD player.fovLength
  let clip := clipToFov.getD cfg.clipWallsToFov
  let fovDegTotal := player.fovDeg + cfg.fovMarginDeg
  let half := radiansQ O.degRad (fovDegTotal / 2)
  let ordered := collectBspOrder player.pos root
  let pos := player.pos
  let maxD2 := maxDist * maxDist
  let ang := player.angleRad
  let tri := fovTriangle O pos ang half maxDist
  if ¬ clip then
    ordered.filter fun seg =>
      isSegmentFacingPlayer seg pos &&
        ¬ (decide (maxD2 < (seg.a.x - pos.x) ^ 2 + (seg.a.y - pos.y) ^ 2) &&
           decide (maxD2 < (seg.b.x - pos.x) ^ 2 + (seg.b.y - pos.y) ^ 2))
  else
    (processOrdered O true pos ang half (radiansQ O.degRad cfg.fovMarginDeg) maxD2 tri
        ordered []).map fun e => e.1

/-! ### Concrete scenes used by claim C1 and claim C2 -/

/-- A wall on the x axis from (0,0) to (1,0). -/
def c1seg1 : Segment := mkSegmentDefault ⟨0, 0⟩ ⟨1, 0⟩ (some true)

/-- A second wall on the same infinite line, from (2,0) to (3,0): both
endpoints have side value zero against the first wall's line. -/
def c1seg2 : Segment := mkSegmentDefault ⟨2, 0⟩ ⟨3, 0⟩ (some true)

/-- A portal wall from (0,0) to (10,0) whose blocks_collision flag is
False. -/
def c2wall : Segment :=
  ⟨⟨⟨0, 0⟩, ⟨10, 0⟩, some true, 0, none, none, none, false⟩, none⟩

unseal Rat.add Rat.sub Rat.mul Rat.inv in
/-- Claim C1 (code_bug): classifying a segment that lies entirely on the
partition's infinite line (side value zero at both endpoints) does not
store it in the node's coplanar list; split_segment returns it as a front
part, so it ends up in the front child.  Here the root's coplanar list
holds only the partition, and the collinear segment c1seg2 sits in the
front child's coplanar list. -/
theorem c1_coplanar_goes_front :
    (bspBuild 32 [c1seg1, c1seg2]).coplanarOf = [c1seg1.replaceSelf] ∧
    (bspBuild 32 [c1seg1, c1seg2]).frontOf.coplanarOf =
      [(c1seg2.replaceAB ⟨2, 0⟩ ⟨3, 0⟩).replaceSelf] ∧
    (bspBuild 32 [c1seg1, c1seg2]).backOf = .empty := by
  decide

unseal Rat.add Rat.sub Rat.mul Rat.inv in
/-- Claim C2 (code_bug): find_first_collision tests a segment whose
blocks_collision flag is False and returns a contact on it; the flag is
never consulted.  The sweep (5,-2) to (5,2) with radius 1 against the
portal wall returns contact (5,-1) and records the portal wall as the
last collided segment. -/
theorem c2_portal_not_excluded :
    findFirstCollision ratSqrt none (bspBuild 32 [c2wall]) ⟨5, -2⟩ ⟨5, 2⟩ 1 =
      (some ⟨5, -1⟩, some c2wall.replaceSelf) ∧
    (c2wall.replaceSelf).blocksCollision = false := by
  decide

/-! ### Claim C8: queries against an empty BSP -/

/-- Claim C8 (confirmed): against an absent root or a root node with no
partition and no children, compute_visible_segments returns the empty
list on both the clipping and the non-clipping path, and
find_first_collision returns no contact and clears
last_collided_segment; the embedded definitions are total, so no
exception path exists. -/
theorem c8_empty_bsp_queries (O : RealOracles) (cfg : VisConfig)
    (player : Player) (maxDistArg : Option ℚ) (clipToFov : Option Bool)
    (rsqrt : ℚ → ℚ) (prev : Option Segment) (start endPt : Vec2) (radius : ℚ) :
    computeVisibleSegments O cfg .empty player maxDistArg clipToFov = [] ∧
    computeVisibleSegments O cfg (.node none [] .empty .empty) player
      maxDistArg clipToFov = [] ∧
    findFirstCollision rsqrt prev .empty start endPt radius = (none, none) ∧
    findFirstCollision rsqrt prev (.node none [] .empty .empty) start endPt
      radius = (none, none) := by
  refine ⟨?_, ?_, ?_, ?_⟩ <;>
    simp [computeVisibleSegments, collectBspOrder, processOrdered,
      findFirstCollision, collectCollisions, minByKey]

/-! ### Claim C10: the last_collided_segment field -/

theorem foldlMin_mem (key : α → ℚ) (xs : List α) (acc : α) :
    xs.foldl (fun m y => if key y < key m then y else m) acc ∈ acc :: xs := by
  induction xs generalizing acc with
  | nil => simp
  | cons x xs ih =>
    simp only [List.foldl_cons]
    rcases List.mem_cons.1 (ih (if key x < key acc then x else acc)) with h | h
    · rw [h]
      split
      · exact List.mem_cons_of_mem _ (List.mem_cons_self _ _)
      · exact List.mem_cons_self _ _
    · exact List.mem_cons_of_mem _ (List.mem_cons_of_mem _ h)

theorem foldlMin_le (key : α → ℚ) (xs : List α) (acc : α) :
    key (xs.foldl (fun m y => if key y < key m then y else m) acc) ≤ key acc ∧
    ∀ y ∈ xs, key (xs.foldl (fun m y => if key y < key m then y else m) acc) ≤ key y := by
  induction xs generalizing acc with
  | nil => simp
  | cons x xs ih =>
    simp only [List.foldl_cons]
    obtain ⟨h1, h2⟩ := ih (if key x < key acc then x else acc)
    have hacc : key (if key x < key acc then x else acc) ≤ key acc := by
      split
      · next hlt => exact le_of_lt hlt
      · exact le_refl _
    have hx : key (if key x < key acc then x else acc) ≤ key x := by
      split
      · exact le_refl _
      · next hlt => exact le_of_not_lt hlt
    refine ⟨h1.trans hacc, ?_⟩
    intro y hy
    rcases List.mem_cons.1 hy with rfl | hy
    · exact h1.trans hx
    · exact h2 y hy

theorem minByKey_spec (key : α → ℚ) (l : List α) (m : α)
    (h : minByKey key l = some m) : m ∈ l ∧ ∀ y ∈ l, key m ≤ key y := by
  cases l with
  | nil => simp [minByKey] at h
  | cons x xs =>
    simp only [minByKey, Option.some.injEq] at h
    subst h
    refine ⟨foldlMin_mem key xs x, ?_⟩
    intro y hy
    rcases List.mem_cons.1 hy with rfl | hy
    · exact (foldlMin_le key xs y).1
    · exact (foldlMin_le key xs x).2 y hy

/-- Claim C10 (confirmed): the result of find_first_collision does not
depend on the previous value of last_collided_segment (the field is
cleared at the start of every call); the returned contact is none exactly
when the recorded segment is none; and a returned contact point is one of
the gathered candidates, owned by the recorded segment, with minimal
squared distance from the start among all candidates. -/
theorem c10_last_collided_segment_sync (rsqrt : ℚ → ℚ)
    (prev prev2 : Option Segment) (root : BSPNode) (start endPt : Vec2)
    (radius : ℚ) :
    findFirstCollision rsqrt prev root start endPt radius =
      findFirstCollision rsqrt prev2 root start endPt radius ∧
    ((findFirstCollision rsqrt prev root start endPt radius).1 = none ↔
      (findFirstCollision rsqrt prev root start endPt radius).2 = none) ∧
    (∀ pt seg,
      findFirstCollision rsqrt prev root start endPt radius = (some pt, some seg) →
      (pt, seg) ∈ collectCollisions rsqrt start endPt radius root ∧
      ∀ q ∈ collectCollisions rsqrt start endPt radius root,
        (pt.x - start.x) ^ 2 + (pt.y - start.y) ^ 2 ≤
          (q.1.x - start.x) ^ 2 + (q.1.y - start.y) ^ 2) := by
  refine ⟨rfl, ?_, ?_⟩
  · unfold findFirstCollision
    cases h : minByKey (fun pr => (pr.1.x - start.x) ^ 2 + (pr.1.y - start.y) ^ 2)
        (collectCollisions rsqrt start endPt radius root) with
    | none => simp only [h]
    | some pr =>
      obtain ⟨pt0, seg0⟩ := pr
      simp only [h]
      simp
  · intro pt seg heq
    unfold findFirstCollision at heq
    cases h : minByKey (fun pr => (pr.1.x - start.x) ^ 2 + (pr.1.y - start.y) ^ 2)
        (collectCollisions rsqrt start endPt radius root) with
    | none =>
      simp only [h] at heq
      simp at heq
    | some pr =>
      obtain ⟨pt0, seg0⟩ := pr
      simp only [h] at heq
      simp only [Prod.mk.injEq, Option.some.injEq] at heq
      obtain ⟨rfl, rfl⟩ := heq
      exact minByKey_spec _ _ _ h

/-! ### Claim C9: segments with an unspecified facing flag -/

theorem replaceAB_interiorFacing (s : Segment) (p q : Vec2) :
    (s.replaceAB p q).interiorFacing = s.interiorFacing := rfl

theorem facing_of_none (s : Segment) (pos : Vec2)
    (h : s.interiorFacing = none) : isSegmentFacingPlayer s pos = false := by
  simp [isSegmentFacingPlayer, h]

theorem interiorFacing_ne_none_of_facing (s : Segment) (pos : Vec2)
    (h : isSegmentFacingPlayer s pos = true) : s.interiorFacing ≠ none := by
  intro hn
  rw [facing_of_none s pos hn] at h
  exact Bool.false_ne_true h

theorem clipMulti_interiorFacing (seg : Segment) (tri : Vec2 × Vec2 × Vec2) :
    ∀ c ∈ clipSegmentToTriangleMulti seg tri,
      c.interiorFacing = seg.interiorFacing := by
  intro c hc
  unfold clipSegmentToTriangleMulti at hc
  simp only [] at hc
  split at hc
  · simp at hc
  · split at hc
    · simp at hc
    · split at hc
      · simp at hc
      · split at hc
        · simp at hc
          rw [hc]
          exact replaceAB_interiorFacing _ _ _
        · simp at hc
          rcases hc with hc | hc <;> rw [hc] <;>
            exact replaceAB_interiorFacing _ _ _
        · rcases List.mem_map.1 hc with ⟨pr, _, rfl⟩
          exact replaceAB_interiorFacing _ _ _

theorem processClipped_interiorFacing (O : RealOracles) (pos : Vec2)
    (ang half marginRad : ℚ) (origSeg : Segment) (covered : List (ℚ × ℚ))
    (clipped : Segment) :
    ∀ e ∈ (processClipped O pos ang half marginRad origSeg covered clipped).1,
      e.1.interiorFacing = clipped.interiorFacing := by
  intro e he
  unfold processClipped at he
  simp only [] at he
  split at he
  · simp at he
  · split at he
    · simp at he
    · rcases List.mem_map.1 he with ⟨iv, _, rfl⟩
      rfl

theorem processClippedList_interiorFacing (O : RealOracles) (pos : Vec2)
    (ang half marginRad : ℚ) (origSeg : Segment) (cs : List Segment)
    (covered : List (ℚ × ℚ)) :
    ∀ e ∈ (processClippedList O pos ang half marginRad origSeg cs covered).1,
      ∃ c ∈ cs, e.1.interiorFacing = c.interiorFacing := by
  induction cs generalizing covered with
  | nil => intro e he; simp [processClippedList] at he
  | cons c cs ih =>
    intro e he
    simp only [processClippedList] at he
    rcases List.mem_append.1 he with h | h
    · exact ⟨c, List.mem_cons_self _ _, processClipped_interiorFacing _ _ _ _ _ _ _ _ e h⟩
    · obtain ⟨c2, hc2, hf⟩ := ih _ e h
      exact ⟨c2, List.mem_cons_of_mem _ hc2, hf⟩

theorem processOrdered_interiorFacing (O : RealOracles) (clip : Bool)
    (pos : Vec2) (ang half marginRad maxD2 : ℚ) (tri : Vec2 × Vec2 × Vec2)
    (segs : List Segment) (covered : List (ℚ × ℚ)) :
    ∀ e ∈ processOrdered O clip pos ang half marginRad maxD2 tri segs covered,
      e.1.interiorFacing ≠ none := by
  induction segs generalizing covered with
  | nil => intro e he; simp [processOrdered] at he
  | cons seg rest ih =>
    intro e he
    simp only [processOrdered] at he
    split at he
    · exact ih _ e he
    · next hface =>
      rcases List.mem_append.1 he with h | h
      · have hfacing : isSegmentFacingPlayer seg pos = true := by
          revert hface
          cases isSegmentFacingPlayer seg pos <;> simp
        obtain ⟨c, hc, hf⟩ := processClippedList_interiorFacing _ _ _ _ _ _ _ _ e h
        rw [hf]
        split at hc
        · rw [clipMulti_interiorFacing seg tri c hc]
          exact interiorFacing_ne_none_of_facing seg pos hfacing
        · split at hc
          · rcases List.mem_singleton.1 hc with rfl
            exact interiorFacing_ne_none_of_facing c pos hfacing
          · simp at hc
      · exact ih _ e h

/-- Claim C9 (confirmed): the facing test (dot > 0) == interior_facing is
False whenever interior_facing is None, and every fragment
compute_visible_segments returns, on the clipping path as well as the
non-clipping path, carries the interior_facing flag of the segment it was
derived from, which the facing filter forces to be set; hence no fragment
derived from a segment with an unspecified flag is ever returned. -/
theorem c9_none_facing_excluded (O : RealOracles) (cfg : VisConfig)
    (root : BSPNode) (player : Player) (maxDistArg : Option ℚ)
    (clipToFov : Option Bool) :
    (∀ s pos, s.interiorFacing = none → isSegmentFacingPlayer s pos = false) ∧
    ∀ frag ∈ computeVisibleSegments O cfg root player maxDistArg clipToFov,
      frag.interiorFacing ≠ none := by
  refine ⟨facing_of_none, ?_⟩
  intro frag hfrag
  unfold computeVisibleSegments at hfrag
  simp only [] at hfrag
  split at hfrag
  · rcases List.mem_filter.1 hfrag with ⟨_, hkeep⟩
    simp only [Bool.and_eq_true] at hkeep
    exact interiorFacing_ne_none_of_facing _ _ hkeep.1
  · rcases List.mem_map.1 hfrag with ⟨e, he, rfl⟩
    exact processOrdered_interiorFacing _ _ _ _ _ _ _ _ _ _ e he

/-! ### Claim C3: angular non-overlap of emitted fragments

The interval bookkeeping of the clipping path is analysed over the
instrumented loop processOrdered, whose emitted entries carry the angular
interval each fragment was reconstructed at (the fragment endpoints are
placed at exactly these angles by the linear angle parametrisation). -/

/-- Two intervals overlap on a sub-interval of positive length. -/
def Overlap (p q : ℚ × ℚ) : Prop := max p.1 q.1 < min p.2 q.2

/-- The interval e is contained in a single member of the list. -/
def InCov (covered : List (ℚ × ℚ)) (e : ℚ × ℚ) : Prop :=
  ∃ c ∈ covered, c.1 ≤ e.1 ∧ e.2 ≤ c.2

theorem Overlap.symm {p q : ℚ × ℚ} (h : Overlap p q) : Overlap q p := by
  unfold Overlap at h ⊢
  rw [max_comm, min_comm]
  exact h

theorem not_overlap_of_le {p q : ℚ × ℚ} (h : p.2 ≤ q.1) : ¬ Overlap p q := by
  unfold Overlap
  intro hov
  exact absurd ((le_max_right p.1 q.1).trans_lt (hov.trans_le (min_le_left _ _)))
    (not_lt.2 h)

/-- Overlap is monotone under enlarging one side. -/
theorem overlap_mono {p e c : ℚ × ℚ} (h1 : c.1 ≤ e.1) (h2 : e.2 ≤ c.2)
    (hov : Overlap p e) : Overlap p c := by
  unfold Overlap at hov ⊢
  have hl : max p.1 c.1 ≤ max p.1 e.1 := max_le_max (le_refl _) h1
  have hr : min p.2 e.2 ≤ min p.2 c.2 := min_le_min (le_refl _) h2
  exact hl.trans_lt (hov.trans_le hr)

/-- Explicit expansion of one loop step of subtractGo. -/
theorem subtractGo_cons (endQ curr cs0 ce0 : ℚ) (rest : List (ℚ × ℚ)) :
    subtractGo endQ curr ((cs0, ce0) :: rest) =
      if ce0 ≤ curr then subtractGo endQ curr rest
      else if endQ < cs0 then (if curr < endQ then [(curr, endQ)] else [])
      else if endQ ≤ max curr ce0 then
        (if curr < cs0 then [(curr, min cs0 endQ)] else [])
      else
        (if curr < cs0 then [(curr, min cs0 endQ)] else []) ++
          subtractGo endQ (max curr ce0) rest := rfl

theorem subtractGo_nil (endQ curr : ℚ) :
    subtractGo endQ curr [] = if curr < endQ then [(curr, endQ)] else [] := rfl

theorem subtractGo_bounds (endQ : ℚ) (cs : List (ℚ × ℚ)) :
    ∀ curr, ∀ p ∈ subtractGo endQ curr cs, curr ≤ p.1 ∧ p.1 < p.2 ∧ p.2 ≤ endQ := by
  induction cs with
  | nil =>
    intro curr p hp
    rw [subtractGo_nil] at hp
    split at hp
    · next h =>
      rcases List.mem_singleton.1 hp with rfl
      exact ⟨le_refl _, h, le_refl _⟩
    · simp at hp
  | cons c0 rest ih =>
    obtain ⟨cs0, ce0⟩ := c0
    intro curr p hp
    rw [subtractGo_cons] at hp
    by_cases h1 : ce0 ≤ curr
    · rw [if_pos h1] at hp
      exact ih curr p hp
    · rw [if_neg h1] at hp
      by_cases h2 : endQ < cs0
      · rw [if_pos h2] at hp
        split at hp
        · next h =>
          rcases List.mem_singleton.1 hp with rfl
          exact ⟨le_refl _, h, le_refl _⟩
        · simp at hp
      · rw [if_neg h2] at hp
        have hpiece : ∀ q ∈ (if curr < cs0 then [(curr, min cs0 endQ)] else []),
            curr ≤ q.1 ∧ q.1 < q.2 ∧ q.2 ≤ endQ := by
          intro q hq
          split at hq
          · next h =>
            rcases List.mem_singleton.1 hq with rfl
            exact ⟨le_refl _, lt_min h (h.trans_le (not_lt.1 h2)), min_le_right _ _⟩
          · simp at hq
        by_cases h3 : endQ ≤ max curr ce0
        · rw [if_pos h3] at hp
          exact hpiece p hp
        · rw [if_neg h3] at hp
          rcases List.mem_append.1 hp with h | h
          · exact hpiece p h
          · obtain ⟨hq1, hq2, hq3⟩ := ih _ p h
            exact ⟨(le_max_left _ _).trans hq1, hq2, hq3⟩

theorem not_overlap_of_le_left {p c : ℚ × ℚ} (h : c.2 ≤ p.1) : ¬ Overlap p c := by
  unfold Overlap
  intro hov
  exact absurd ((le_max_left p.1 c.1).trans_lt (hov.trans_le (min_le_right _ _)))
    (not_lt.2 h)

theorem subtractGo_avoids (endQ : ℚ) (cs : List (ℚ × ℚ))
    (hsort : cs.Pairwise (fun c d => c.1 ≤ d.1)) :
    ∀ curr, ∀ p ∈ subtractGo endQ curr cs, ∀ c ∈ cs, ¬ Overlap p c := by
  induction cs with
  | nil => intro curr p _ c hc; simp at hc
  | cons c0 rest ih =>
    obtain ⟨cs0, ce0⟩ := c0
    obtain ⟨hhead, htail⟩ := List.pairwise_cons.1 hsort
    intro curr p hp c hc
    rw [subtractGo_cons] at hp
    by_cases h1 : ce0 ≤ curr
    · rw [if_pos h1] at hp
      rcases List.mem_cons.1 hc with rfl | hc
      · exact not_overlap_of_le_left
          (h1.trans (subtractGo_bounds endQ rest curr p hp).1)
      · exact ih htail curr p hp c hc
    · rw [if_neg h1] at hp
      by_cases h2 : endQ < cs0
      · rw [if_pos h2] at hp
        split at hp
        · rcases List.mem_singleton.1 hp with rfl
          rcases List.mem_cons.1 hc with rfl | hc
          · exact not_overlap_of_le (le_of_lt h2)
          · exact not_overlap_of_le (le_of_lt (h2.trans_le (hhead c hc)))
        · simp at hp
      · rw [if_neg h2] at hp
        have hpiece : ∀ q ∈ (if curr < cs0 then [(curr, min cs0 endQ)] else []),
            ∀ c ∈ (cs0, ce0) :: rest, ¬ Overlap q c := by
          intro q hq c hc
          split at hq
          · rcases List.mem_singleton.1 hq with rfl
            rcases List.mem_cons.1 hc with rfl | hc
            · exact not_overlap_of_le (min_le_left _ _)
            · exact not_overlap_of_le ((min_le_left _ _).trans (hhead c hc))
          · simp at hq
        by_cases h3 : endQ ≤ max curr ce0
        · rw [if_pos h3] at hp
          exact hpiece p hp c hc
        · rw [if_neg h3] at hp
          rcases List.mem_append.1 hp with h | h
          · exact hpiece p h c hc
          · rcases List.mem_cons.1 hc with rfl | hc
            · exact not_overlap_of_le_left
                ((le_max_right curr ce0).trans
                  (subtractGo_bounds endQ rest _ p h).1)
            · exact ih htail _ p h c hc

theorem subtractGo_pairwise (endQ : ℚ) (cs : List (ℚ × ℚ))
    (hwf : ∀ c ∈ cs, c.1 ≤ c.2)
    (hsort : cs.Pairwise (fun c d => c.1 ≤ d.1)) :
    ∀ curr, (subtractGo endQ curr cs).Pairwise (fun p q => p.2 ≤ q.1) := by
  induction cs with
  | nil =>
    intro curr
    rw [subtractGo_nil]
    split
    · exact List.pairwise_singleton _ _
    · exact List.Pairwise.nil
  | cons c0 rest ih =>
    obtain ⟨cs0, ce0⟩ := c0
    obtain ⟨hhead, htail⟩ := List.pairwise_cons.1 hsort
    have hwf0 : cs0 ≤ ce0 := hwf _ (List.mem_cons_self _ _)
    have hwft : ∀ c ∈ rest, c.1 ≤ c.2 := fun c hc => hwf c (List.mem_cons_of_mem _ hc)
    intro curr
    rw [subtractGo_cons]
    by_cases h1 : ce0 ≤ curr
    · rw [if_pos h1]
      exact ih hwft htail curr
    · rw [if_neg h1]
      by_cases h2 : endQ < cs0
      · rw [if_pos h2]
        split
        · exact List.pairwise_singleton _ _
        · exact List.Pairwise.nil
      · rw [if_neg h2]
        by_cases h3 : endQ ≤ max curr ce0
        · rw [if_pos h3]
          split
          · exact List.pairwise_singleton _ _
          · exact List.Pairwise.nil
        · rw [if_neg h3]
          rw [List.pairwise_append]
          refine ⟨?_, ih hwft htail _, ?_⟩
          · split
            · exact List.pairwise_singleton _ _
            · exact List.Pairwise.nil
          · intro a ha b hb
            split at ha
            · rcases List.mem_singleton.1 ha with rfl
              have hb1 := (subtractGo_bounds endQ rest _ b hb).1
              exact (min_le_left cs0 endQ).trans
                (hwf0.trans ((le_max_right curr ce0).trans hb1))
            · simp at ha

theorem sortedCovered_starts (covered : List (ℚ × ℚ)) :
    (List.insertionSort pairLex covered).Pairwise (fun c d => c.1 ≤ d.1) := by
  refine (List.sorted_insertionSort pairLex covered).imp ?_
  intro a b hab
  rcases hab with h | ⟨h, _⟩
  · exact le_of_lt h
  · exact le_of_eq h

theorem mem_sortedCovered {covered : List (ℚ × ℚ)} {c : ℚ × ℚ} :
    c ∈ List.insertionSort pairLex covered ↔ c ∈ covered :=
  (List.perm_insertionSort pairLex covered).mem_iff

theorem subtractIntervals_bounds (iv : ℚ × ℚ) (covered : List (ℚ × ℚ)) :
    ∀ p ∈ subtractIntervals iv covered, iv.1 ≤ p.1 ∧ p.1 < p.2 ∧ p.2 ≤ iv.2 :=
  subtractGo_bounds iv.2 (List.insertionSort pairLex covered) iv.1

theorem subtractIntervals_avoids (iv : ℚ × ℚ) (covered : List (ℚ × ℚ)) :
    ∀ p ∈ subtractIntervals iv covered, ∀ c ∈ covered, ¬ Overlap p c := by
  intro p hp c hc
  exact subtractGo_avoids iv.2 _ (sortedCovered_starts covered) iv.1 p hp c
    (mem_sortedCovered.2 hc)

theorem subtractIntervals_pairwise (iv : ℚ × ℚ) (covered : List (ℚ × ℚ))
    (hwf : ∀ c ∈ covered, c.1 ≤ c.2) :
    (subtractIntervals iv covered).Pairwise (fun p q => p.2 ≤ q.1) :=
  subtractGo_pairwise iv.2 _ (fun c hc => hwf c (mem_sortedCovered.1 hc))
    (sortedCovered_starts covered) iv.1

theorem mergeGo_wf (eps : ℚ) (rest : List (ℚ × ℚ)) :
    ∀ lastS lastE, lastS ≤ lastE → (∀ c ∈ rest, c.1 ≤ c.2) →
      ∀ o ∈ mergeGo eps lastS lastE rest, o.1 ≤ o.2 := by
  induction rest with
  | nil =>
    intro lastS lastE h _ o ho
    rcases List.mem_singleton.1 ho with rfl
    exact h
  | cons c rest ih =>
    obtain ⟨s, e⟩ := c
    intro lastS lastE h hwf o ho
    unfold mergeGo at ho
    split at ho
    · exact ih lastS (max lastE e) (h.trans (le_max_left _ _))
        (fun c hc => hwf c (List.mem_cons_of_mem _ hc)) o ho
    · rcases List.mem_cons.1 ho with rfl | ho
      · exact h
      · exact ih s e (hwf _ (List.mem_cons_self _ _))
          (fun c hc => hwf c (List.mem_cons_of_mem _ hc)) o ho

theorem mergeGo_covers (eps : ℚ) (rest : List (ℚ × ℚ)) :
    ∀ lastS lastE,
      rest.Pairwise (fun c d => c.1 ≤ d.1) →
      (∀ c ∈ rest, lastS ≤ c.1) →
      (∃ o ∈ mergeGo eps lastS lastE rest, o.1 ≤ lastS ∧ lastE ≤ o.2) ∧
      ∀ iv ∈ rest, ∃ o ∈ mergeGo eps lastS lastE rest, o.1 ≤ iv.1 ∧ iv.2 ≤ o.2 := by
  induction rest with
  | nil =>
    intro lastS lastE _ _
    exact ⟨⟨(lastS, lastE), List.mem_singleton_self _, le_refl _, le_refl _⟩,
      by intro iv hiv; simp at hiv⟩
  | cons c rest ih =>
    obtain ⟨s, e⟩ := c
    intro lastS lastE hsort hstart
    obtain ⟨hhead, htail⟩ := List.pairwise_cons.1 hsort
    have hS : lastS ≤ s := hstart _ (List.mem_cons_self _ _)
    unfold mergeGo
    split
    · next hmerge =>
      obtain ⟨⟨o, homem, ho1, ho2⟩, hrest⟩ := ih lastS (max lastE e) htail
        (fun c hc => hstart c (List.mem_cons_of_mem _ hc))
      refine ⟨⟨o, homem, ho1, (le_max_left _ _).trans ho2⟩, ?_⟩
      intro iv hiv
      rcases List.mem_cons.1 hiv with rfl | hiv
      · exact ⟨o, homem, ho1.trans hS, (le_max_right lastE e).trans ho2⟩
      · exact hrest iv hiv
    · obtain ⟨⟨o, homem, ho1, ho2⟩, hrest⟩ := ih s e htail hhead
      refine ⟨⟨(lastS, lastE), List.mem_cons_self _ _, le_refl _, le_refl _⟩, ?_⟩
      intro iv hiv
      rcases List.mem_cons.1 hiv with rfl | hiv
      · exact ⟨o, List.mem_cons_of_mem _ homem, ho1, ho2⟩
      · obtain ⟨o2, ho2mem, h1, h2⟩ := hrest iv hiv
        exact ⟨o2, List.mem_cons_of_mem _ ho2mem, h1, h2⟩

theorem mergeIntervals_covers (intervals : List (ℚ × ℚ)) (eps : ℚ) :
    ∀ iv ∈ intervals, ∃ o ∈ mergeIntervals intervals eps, o.1 ≤ iv.1 ∧ iv.2 ≤ o.2 := by
  intro iv hiv
  have hmem : iv ∈ List.insertionSort pairLex intervals := mem_sortedCovered.2 hiv
  unfold mergeIntervals
  cases hs : List.insertionSort pairLex intervals with
  | nil => rw [hs] at hmem; simp at hmem
  | cons c rest =>
    obtain ⟨s, e⟩ := c
    have hsort := sortedCovered_starts intervals
    rw [hs] at hsort hmem
    obtain ⟨hhead, htail⟩ := List.pairwise_cons.1 hsort
    obtain ⟨hfirst, hrest⟩ := mergeGo_covers eps rest s e htail hhead
    rcases List.mem_cons.1 hmem with rfl | hmem
    · obtain ⟨o, homem, h1, h2⟩ := hfirst
      exact ⟨o, homem, h1, h2⟩
    · exact hrest iv hmem

theorem mergeIntervals_wf (intervals : List (ℚ × ℚ)) (eps : ℚ)
    (hwf : ∀ c ∈ intervals, c.1 ≤ c.2) :
    ∀ o ∈ mergeIntervals intervals eps, o.1 ≤ o.2 := by
  intro o ho
  have hwfs : ∀ c ∈ List.insertionSort pairLex intervals, c.1 ≤ c.2 :=
    fun c hc => hwf c (mem_sortedCovered.1 hc)
  unfold mergeIntervals at ho
  cases hs : List.insertionSort pairLex intervals with
  | nil => rw [hs] at ho; simp at ho
  | cons c rest =>
    obtain ⟨s, e⟩ := c
    rw [hs] at ho hwfs
    exact mergeGo_wf eps rest s e (hwfs _ (List.mem_cons_self _ _))
      (fun c hc => hwfs c (List.mem_cons_of_mem _ hc)) o ho

theorem InCov.mono {cov1 cov2 : List (ℚ × ℚ)} {e : ℚ × ℚ}
    (h : InCov cov1 e) (hmono : ∀ c ∈ cov1, InCov cov2 c) : InCov cov2 e := by
  obtain ⟨c, hc, h1, h2⟩ := h
  obtain ⟨o, ho, g1, g2⟩ := hmono c hc
  exact ⟨o, ho, g1.trans h1, h2.trans g2⟩

theorem not_overlap_of_incov {f e : ℚ × ℚ} {cov : List (ℚ × ℚ)}
    (he : InCov cov e) (hf : ∀ c ∈ cov, ¬ Overlap f c) : ¬ Overlap f e := by
  obtain ⟨c, hc, h1, h2⟩ := he
  intro hov
  exact hf c hc (overlap_mono h1 h2 hov)

/-- The occlusion step on one angular interval: the residual pieces are
positive, avoid the old covered set, are pairwise ordered, and the merged
new covered set is well formed and contains every new piece and every old
interval. -/
theorem emitStep_inv (segStart segEnd eps : ℚ) (covered : List (ℚ × ℚ))
    (hwf : ∀ c ∈ covered, c.1 ≤ c.2) :
    (∀ c2 ∈ mergeIntervals (covered ++ subtractIntervals (segStart, segEnd) covered) eps,
      c2.1 ≤ c2.2) ∧
    (∀ iv ∈ subtractIntervals (segStart, segEnd) covered,
      iv.1 < iv.2 ∧ (∀ c ∈ covered, ¬ Overlap iv c) ∧
      InCov (mergeIntervals (covered ++ subtractIntervals (segStart, segEnd) covered) eps) iv) ∧
    (∀ c ∈ covered,
      InCov (mergeIntervals (covered ++ subtractIntervals (segStart, segEnd) covered) eps) c) ∧
    (subtractIntervals (segStart, segEnd) covered).Pairwise (fun p q => p.2 ≤ q.1) := by
  have hb := subtractIntervals_bounds (segStart, segEnd) covered
  have hwfI : ∀ c ∈ covered ++ subtractIntervals (segStart, segEnd) covered, c.1 ≤ c.2 := by
    intro c hc
    rcases List.mem_append.1 hc with h | h
    · exact hwf c h
    · exact le_of_lt (hb c h).2.1
  refine ⟨mergeIntervals_wf _ _ hwfI, ?_, ?_, subtractIntervals_pairwise _ _ hwf⟩
  · intro iv hiv
    exact ⟨(hb iv hiv).2.1, subtractIntervals_avoids _ _ iv hiv,
      mergeIntervals_covers _ _ iv (List.mem_append_right _ hiv)⟩
  · intro c hc
    exact mergeIntervals_covers _ _ c (List.mem_append_left _ hc)

/-- Invariant of processClipped: component version of emitStep_inv, with
the emitted entries carrying their intervals. -/
theorem processClipped_inv (O : RealOracles) (pos : Vec2)
    (ang half marginRad : ℚ) (origSeg : Segment) (covered : List (ℚ × ℚ))
    (clipped : Segment) (hwf : ∀ c ∈ covered, c.1 ≤ c.2) :
    (∀ c2 ∈ (processClipped O pos ang half marginRad origSeg covered clipped).2,
      c2.1 ≤ c2.2) ∧
    (∀ e ∈ (processClipped O pos ang half marginRad origSeg covered clipped).1,
      (e.2.1 < e.2.2 ∧ ∀ c ∈ covered, ¬ Overlap e.2 c) ∧
      InCov (processClipped O pos ang half marginRad origSeg covered clipped).2 e.2) ∧
    (∀ c ∈ covered,
      InCov (processClipped O pos ang half marginRad origSeg covered clipped).2 c) ∧
    List.Pairwise (fun e f => e.2.2 ≤ f.2.1)
      (processClipped O pos ang half marginRad origSeg covered clipped).1 := by
  unfold processClipped
  simp only []
  split
  · exact ⟨hwf, by simp, fun c hc => ⟨c, hc, le_refl _, le_refl _⟩, by simp⟩
  · split
    · exact ⟨hwf, by simp, fun c hc => ⟨c, hc, le_refl _, le_refl _⟩, by simp⟩
    · obtain ⟨hA, hB, hC, hD⟩ := emitStep_inv
        (max (min (endpointAngle O pos ang clipped.a) (endpointAngle O pos ang clipped.b))
          (-half - marginRad))
        (min (max (endpointAngle O pos ang clipped.a) (endpointAngle O pos ang clipped.b))
          (half + marginRad))
        (1 / 100000) covered hwf
      refine ⟨hA, ?_, hC, ?_⟩
      · intro e he
        rcases List.mem_map.1 he with ⟨iv, hiv, rfl⟩
        obtain ⟨h1, h2, h3⟩ := hB iv hiv
        exact ⟨⟨h1, h2⟩, h3⟩
      · rw [List.pairwise_map]
        exact hD

/-- Invariant of processClippedList over the clipped fragments of one
source segment. -/
theorem processClippedList_inv (O : RealOracles) (pos : Vec2)
    (ang half marginRad : ℚ) (origSeg : Segment) (cs : List Segment) :
    ∀ covered, (∀ c ∈ covered, c.1 ≤ c.2) →
    (∀ c2 ∈ (processClippedList O pos ang half marginRad origSeg cs covered).2,
      c2.1 ≤ c2.2) ∧
    (∀ e ∈ (processClippedList O pos ang half marginRad origSeg cs covered).1,
      (e.2.1 < e.2.2 ∧ ∀ c ∈ covered, ¬ Overlap e.2 c) ∧
      InCov (processClippedList O pos ang half marginRad origSeg cs covered).2 e.2) ∧
    (∀ c ∈ covered,
      InCov (processClippedList O pos ang half marginRad origSeg cs covered).2 c) ∧
    List.Pairwise (fun e f => ¬ Overlap e.2 f.2)
      (processClippedList O pos ang half marginRad origSeg cs covered).1 := by
  induction cs with
  | nil =>
    intro covered hwf
    exact ⟨hwf, by simp [processClippedList],
      fun c hc => ⟨c, hc, le_refl _, le_refl _⟩, by simp [processClippedList]⟩
  | cons c0 cs ih =>
    intro covered hwf
    obtain ⟨hA1, hB1, hC1, hD1⟩ := processClipped_inv O pos ang half marginRad
      origSeg covered c0 hwf
    obtain ⟨hA2, hB2, hC2, hD2⟩ := ih
      (processClipped O pos ang half marginRad origSeg covered c0).2 hA1
    simp only [processClippedList]
    refine ⟨hA2, ?_, ?_, ?_⟩
    · intro e he
      rcases List.mem_append.1 he with h | h
      · obtain ⟨⟨h1, h2⟩, h3⟩ := hB1 e h
        exact ⟨⟨h1, h2⟩, h3.mono hC2⟩
      · obtain ⟨⟨h1, h2⟩, h3⟩ := hB2 e h
        refine ⟨⟨h1, ?_⟩, h3⟩
        intro c hc
        exact not_overlap_of_incov (hC1 c hc) h2
    · intro c hc
      exact (hC1 c hc).mono hC2
    · rw [List.pairwise_append]
      refine ⟨hD1.imp (fun h => not_overlap_of_le h), hD2, ?_⟩
      intro a ha b hb
      intro hov
      obtain ⟨⟨_, _⟩, ha3⟩ := hB1 a ha
      obtain ⟨⟨_, hb2⟩, _⟩ := hB2 b hb
      exact not_overlap_of_incov ha3 hb2 hov.symm

/-- Invariant of the main loop: every emitted entry has a positive
interval avoiding the covered set it started from, and the emitted
intervals are pairwise without positive-length overlap. -/
theorem processOrdered_inv (O : RealOracles) (clip : Bool) (pos : Vec2)
    (ang half marginRad maxD2 : ℚ) (tri : Vec2 × Vec2 × Vec2)
    (segs : List Segment) :
    ∀ covered, (∀ c ∈ covered, c.1 ≤ c.2) →
    (∀ e ∈ processOrdered O clip pos ang half marginRad maxD2 tri segs covered,
      e.2.1 < e.2.2 ∧ ∀ c ∈ covered, ¬ Overlap e.2 c) ∧
    List.Pairwise (fun e f => ¬ Overlap e.2 f.2)
      (processOrdered O clip pos ang half marginRad maxD2 tri segs covered) := by
  induction segs with
  | nil =>
    intro covered hwf
    exact ⟨by simp [processOrdered], by simp [processOrdered]⟩
  | cons seg rest ih =>
    intro covered hwf
    simp only [processOrdered]
    split
    · exact ih covered hwf
    · obtain ⟨hA1, hB1, hC1, hD1⟩ := processClippedList_inv O pos ang half
        marginRad seg _ covered hwf
      obtain ⟨hB2, hD2⟩ := ih _ hA1
      refine ⟨?_, ?_⟩
      · intro e he
        rcases List.mem_append.1 he with h | h
        · exact (hB1 e h).1
        · obtain ⟨h1, h2⟩ := hB2 e h
          refine ⟨h1, ?_⟩
          intro c hc
          exact not_overlap_of_incov (hC1 c hc) h2
      · rw [List.pairwise_append]
        refine ⟨hD1, hD2, ?_⟩
        intro a ha b hb hov
        obtain ⟨_, ha3⟩ := hB1 a ha
        obtain ⟨_, hb2⟩ := hB2 b hb
        exact not_overlap_of_incov ha3 hb2 hov.symm

/-- Claim C3 (confirmed): for a fixed viewer, the angular intervals the
solver assigns to the fragments it returns (each returned fragment is
reconstructed by interpolating its endpoints at exactly the bounds of its
residual interval) are pairwise without any positive-length common
sub-interval, and the clipping path of compute_visible_segments returns
exactly the fragments of that instrumented loop. -/
theorem c3_no_angular_overlap (O : RealOracles) (cfg : VisConfig)
    (root : BSPNode) (player : Player) (maxDist : ℚ) (clip : Bool) :
    List.Pairwise (fun e f => ¬ Overlap e.2 f.2)
      (processOrdered O clip player.pos player.angleRad
        (radiansQ O.degRad ((player.fovDeg + cfg.fovMarginDeg) / 2))
        (radiansQ O.degRad cfg.fovMarginDeg) (maxDist * maxDist)
        (fovTriangle O player.pos player.angleRad
          (radiansQ O.degRad ((player.fovDeg + cfg.fovMarginDeg) / 2)) maxDist)
        (collectBspOrder player.pos root) []) ∧
    computeVisibleSegments O cfg root player (some maxDist) (some true) =
      (processOrdered O true player.pos player.angleRad
        (radiansQ O.degRad ((player.fovDeg + cfg.fovMarginDeg) / 2))
        (radiansQ O.degRad cfg.fovMarginDeg) (maxDist * maxDist)
        (fovTriangle O player.pos player.angleRad
          (radiansQ O.degRad ((player.fovDeg + cfg.fovMarginDeg) / 2)) maxDist)
        (collectBspOrder player.pos root) []).map Prod.fst := by
  constructor
  · exact (processOrdered_inv O clip player.pos player.angleRad _ _ _ _ _ []
      (by simp)).2
  · rfl

/-! ### Claim C7: the clamp range of emitted angular intervals -/

theorem processClipped_range (O : RealOracles) (pos : Vec2)
    (ang half marginRad : ℚ) (origSeg : Segment) (covered : List (ℚ × ℚ))
    (clipped : Segment) :
    ∀ e ∈ (processClipped O pos ang half marginRad origSeg covered clipped).1,
      -half - marginRad ≤ e.2.1 ∧ e.2.2 ≤ half + marginRad := by
  intro e he
  unfold processClipped at he
  simp only [] at he
  split at he
  · simp at he
  · split at he
    · simp at he
    · rcases List.mem_map.1 he with ⟨iv, hiv, rfl⟩
      obtain ⟨h1, _, h3⟩ := subtractIntervals_bounds _ covered iv hiv
      exact ⟨(le_max_right _ _).trans h1, h3.trans (min_le_right _ _)⟩

theorem processClippedList_range (O : RealOracles) (pos : Vec2)
    (ang half marginRad : ℚ) (origSeg : Segment) (cs : List Segment) :
    ∀ covered, ∀ e ∈ (processClippedList O pos ang half marginRad origSeg cs covered).1,
      -half - marginRad ≤ e.2.1 ∧ e.2.2 ≤ half + marginRad := by
  induction cs with
  | nil => intro covered e he; simp [processClippedList] at he
  | cons c0 cs ih =>
    intro covered e he
    simp only [processClippedList] at he
    rcases List.mem_append.1 he with h | h
    · exact processClipped_range O pos ang half marginRad origSeg covered c0 e h
    · exact ih _ e h

theorem processOrdered_range (O : RealOracles) (clip : Bool) (pos : Vec2)
    (ang half marginRad maxD2 : ℚ) (tri : Vec2 × Vec2 × Vec2)
    (segs : List Segment) :
    ∀ covered, ∀ e ∈ processOrdered O clip pos ang half marginRad maxD2 tri segs covered,
      -half - marginRad ≤ e.2.1 ∧ e.2.2 ≤ half + marginRad := by
  induction segs with
  | nil => intro covered e he; simp [processOrdered] at he
  | cons seg rest ih =>
    intro covered e he
    simp only [processOrdered] at he
    split at he
    · exact ih _ e he
    · rcases List.mem_append.1 he with h | h
      · exact processClippedList_range O pos ang half marginRad seg _ _ e h
      · exact ih _ e h

/-- Claim C7 (corrected, amended): every angular interval the solver
assigns to an emitted fragment is clamped to
[-(half + margin_rad), half + margin_rad], where half is the radian
half-angle of the margin-padded FOV (fov_deg + fov_margin_deg) / 2 and
margin_rad is the radian value of fov_margin_deg — that is, FOV/2 plus
1.5 times the configured margin, not FOV/2; when fov_margin_deg is 0 the
bound is exactly the radian value of FOV/2, giving the range the claim
states. -/
theorem c7_amended_clamp_range (O : RealOracles) (cfg : VisConfig)
    (root : BSPNode) (player : Player) (maxDist : ℚ) (clip : Bool) :
    (∀ e ∈ processOrdered O clip player.pos player.angleRad
        (radiansQ O.degRad ((player.fovDeg + cfg.fovMarginDeg) / 2))
        (radiansQ O.degRad cfg.fovMarginDeg) (maxDist * maxDist)
        (fovTriangle O player.pos player.angleRad
          (radiansQ O.degRad ((player.fovDeg + cfg.fovMarginDeg) / 2)) maxDist)
        (collectBspOrder player.pos root) [],
      -(radiansQ O.degRad ((player.fovDeg + cfg.fovMarginDeg) / 2)) -
          radiansQ O.degRad cfg.fovMarginDeg ≤ e.2.1 ∧
      e.2.2 ≤ radiansQ O.degRad ((player.fovDeg + cfg.fovMarginDeg) / 2) +
          radiansQ O.degRad cfg.fovMarginDeg) ∧
    (cfg.fovMarginDeg = 0 →
      radiansQ O.degRad ((player.fovDeg + cfg.fovMarginDeg) / 2) +
          radiansQ O.degRad cfg.fovMarginDeg =
        radiansQ O.degRad (player.fovDeg / 2)) := by
  constructor
  · exact processOrdered_range O clip player.pos player.angleRad _ _ _ _ _ []
  · intro h
    simp [radiansQ, h]

/-! ### Concrete scene for the C7 counterexample: default margin 10
degrees, FOV 90 degrees, viewer at the origin facing +x, and a vertical
wall at x = 1 rising past the 45 degree claim bound.  The oracle values
are rational surrogates of the real atan2 / cos / sin / pi values at the
points the run queries. -/

def c7rad : ℚ := 1745329 / 100000000

def c7pi : ℚ := 314159265 / 100000000

def c7atan (y x : ℚ) : ℚ :=
  if y = -1 ∧ x = 1 then -785398 / 1000000
  else if y = 191511 / 160697 ∧ x = 1 then 872650 / 1000000
  else 0

def c7cos (_ : ℚ) : ℚ := 642788 / 1000000

def c7sin (x : ℚ) : ℚ := if x < 0 then -766044 / 1000000 else 766044 / 1000000

def c7O : RealOracles := ⟨c7atan, c7cos, c7sin, fun _ => 0, c7pi, c7rad⟩

def c7wall : Segment := mkSegmentDefault ⟨1, -1⟩ ⟨1, 13/10⟩ (some true)

def c7half : ℚ := radiansQ c7rad ((90 + 10) / 2)

def c7margin : ℚ := radiansQ c7rad 10

unseal Rat.add Rat.sub Rat.mul Rat.inv in
/-- Claim C7 counterexample: with the default fov_margin_deg of 10
degrees, a 90 degree FOV viewer at the origin sees a fragment whose
assigned angular interval reaches 0.87265 radians, strictly beyond the
claimed bound FOV/2 = 45 degrees = 0.78539805 radians (while staying
inside the code's actual clamp of 60 degrees). -/
theorem c7_counterexample :
    ¬ (∀ e ∈ processOrdered c7O true ⟨0, 0⟩ 0 c7half c7margin (20 * 20)
        (fovTriangle c7O ⟨0, 0⟩ 0 c7half 20) [c7wall] [],
        -(radiansQ c7rad (90 / 2)) ≤ e.2.1 ∧ e.2.2 ≤ radiansQ c7rad (90 / 2)) := by
  decide

/-! ### Claim C6: u_offset round trip under no-op clipping -/

theorem replaceAB_a (s : Segment) (p q : Vec2) : (s.replaceAB p q).a = p := rfl

theorem replaceAB_b (s : Segment) (p q : Vec2) : (s.replaceAB p q).b = q := rfl

theorem lerpVec2_zero (a b : Vec2) : lerpVec2 a b 0 = a := by
  simp [lerpVec2]

theorem lerpVec2_one (a b : Vec2) : lerpVec2 a b 1 = b := by
  simp [lerpVec2]

theorem Vec2.ext_xy : ∀ {p q : Vec2}, p.x = q.x → p.y = q.y → p = q
  | ⟨_, _⟩, ⟨_, _⟩, rfl, rfl => rfl

/-- Projecting the original segment's own first endpoint recovers the base
offset for an interior-facing wall. -/
theorem interpolateUOffset_a (rsqrt : ℚ → ℚ) (core : SegCore)
    (hface : core.interiorFacing = some true) :
    interpolateUOffset rsqrt core core.a = core.uOffset := by
  unfold interpolateUOffset
  simp only []
  split
  · rfl
  · rw [sub_self, sub_self, zero_mul, zero_mul, add_zero, zero_div]
    rw [min_eq_right (zero_le_one)]
    rw [max_eq_left (le_refl (0 : ℚ))]
    rw [zero_mul, add_zero]

/-- Projecting the original segment's own second endpoint recovers the
base offset for an exterior-facing wall, given a square root consistent
at the squared length. -/
theorem interpolateUOffset_b (rsqrt : ℚ → ℚ) (core : SegCore)
    (hface : core.interiorFacing = some false)
    (hlen : rsqrt ((core.b.x - core.a.x) * (core.b.x - core.a.x) +
        (core.b.y - core.a.y) * (core.b.y - core.a.y)) *
      rsqrt ((core.b.x - core.a.x) * (core.b.x - core.a.x) +
        (core.b.y - core.a.y) * (core.b.y - core.a.y)) =
      (core.b.x - core.a.x) * (core.b.x - core.a.x) +
        (core.b.y - core.a.y) * (core.b.y - core.a.y))
    (hab : core.a ≠ core.b) :
    interpolateUOffset rsqrt core core.b = core.uOffset := by
  have hL2 : (core.b.x - core.a.x) * (core.b.x - core.a.x) +
      (core.b.y - core.a.y) * (core.b.y - core.a.y) ≠ 0 := by
    intro h0
    rcases (add_eq_zero_iff_of_nonneg (mul_self_nonneg _) (mul_self_nonneg _)).1 h0
      with ⟨hx, hy⟩
    exact hab (Vec2.ext_xy (sub_eq_zero.1 (mul_self_eq_zero.1 hx)).symm
      (sub_eq_zero.1 (mul_self_eq_zero.1 hy)).symm)
  have hlenne : rsqrt ((core.b.x - core.a.x) * (core.b.x - core.a.x) +
      (core.b.y - core.a.y) * (core.b.y - core.a.y)) ≠ 0 := by
    intro h0
    rw [h0, zero_mul] at hlen
    exact hL2 hlen.symm
  unfold interpolateUOffset
  simp only []
  split
  · next h0 => exact absurd h0 hlenne
  · rw [hlen]
    rw [div_self hL2]
    rw [min_self]
    rw [max_eq_right (zero_le_one)]
    rw [sub_self]
    rw [hface]
    rw [if_neg (by simp : ¬(some false = some true))]
    rw [zero_mul, add_zero]

/-- The occlusion step of a single facing, unclipped, unoccluded segment:
the single emitted fragment keeps the original u_offset.  The angular
order of the endpoints is tied to the side of the viewer (the facing dot
product), as it is for the real atan2 whenever the segment subtends less
than a half turn. -/
theorem processClipped_noop_uoffset (O : RealOracles) (pos : Vec2)
    (ang half marginRad : ℚ) (seg : Segment)
    (horig : seg.originalCore = none)
    (hface : isSegmentFacingPlayer seg pos = true)
    (hdot : facingDot seg pos ≠ 0)
    (hord1 : 0 < facingDot seg pos →
      endpointAngle O pos ang seg.a < endpointAngle O pos ang seg.b)
    (hord2 : facingDot seg pos < 0 →
      endpointAngle O pos ang seg.b < endpointAngle O pos ang seg.a)
    (hab : seg.a ≠ seg.b)
    (hlo : -half - marginRad ≤
      min (endpointAngle O pos ang seg.a) (endpointAngle O pos ang seg.b))
    (hhi : max (endpointAngle O pos ang seg.a) (endpointAngle O pos ang seg.b) ≤
      half + marginRad)
    (hlen : O.rsqrt ((seg.b.x - seg.a.x) * (seg.b.x - seg.a.x) +
        (seg.b.y - seg.a.y) * (seg.b.y - seg.a.y)) *
      O.rsqrt ((seg.b.x - seg.a.x) * (seg.b.x - seg.a.x) +
        (seg.b.y - seg.a.y) * (seg.b.y - seg.a.y)) =
      (seg.b.x - seg.a.x) * (seg.b.x - seg.a.x) +
        (seg.b.y - seg.a.y) * (seg.b.y - seg.a.y)) :
    ((processClipped O pos ang half marginRad seg []
        (seg.replaceAB seg.a seg.b)).1).map (fun e => e.1.uOffset) =
      [seg.uOffset] := by
  have horigc : seg.orig = seg.core := by
    unfold Segment.orig
    rw [horig]
    rfl
  have hdec := of_decide_eq_true hface
  unfold processClipped
  simp only [replaceAB_a, replaceAB_b]
  rcases lt_or_gt_of_ne hdot with hneg | hpos
  · -- exterior facing: decreasing angular order, fragment starts at b
    have hiF : seg.interiorFacing = some false := by
      rw [hdec, decide_eq_false (not_lt.2 hneg.le)]
    have hlt : endpointAngle O pos ang seg.b < endpointAngle O pos ang seg.a :=
      hord2 hneg
    have hmin : min (endpointAngle O pos ang seg.a) (endpointAngle O pos ang seg.b) =
        endpointAngle O pos ang seg.b := min_eq_right hlt.le
    have hmax : max (endpointAngle O pos ang seg.a) (endpointAngle O pos ang seg.b) =
        endpointAngle O pos ang seg.a := max_eq_left hlt.le
    rw [hmin] at hlo
    rw [hmax] at hhi
    simp only [hmin, hmax, max_eq_left hlo, min_eq_left hhi]
    rw [if_neg (not_le.2 hlt)]
    have hIv : subtractIntervals
        (endpointAngle O pos ang seg.b, endpointAngle O pos ang seg.a)
        ([] : List (ℚ × ℚ)) =
        [(endpointAngle O pos ang seg.b, endpointAngle O pos ang seg.a)] := by
      simp [subtractIntervals, List.insertionSort, subtractGo_nil, hlt]
    rw [hIv]
    rw [if_neg (by simp : ¬([(endpointAngle O pos ang seg.b,
      endpointAngle O pos ang seg.a)] : List (ℚ × ℚ)) = [])]
    simp only [List.map_cons, List.map_nil]
    have hne : endpointAngle O pos ang seg.a ≠ endpointAngle O pos ang seg.b :=
      hlt.ne.symm
    rw [if_pos (Ne.symm hne)]
    rw [div_self (sub_ne_zero.2 (Ne.symm hne))]
    rw [lerpVec2_one]
    show [interpolateUOffset O.rsqrt seg.orig seg.core.b] = [seg.uOffset]
    rw [horigc]
    rw [interpolateUOffset_b O.rsqrt seg.core hiF hlen hab]
    rfl
  · -- interior facing: increasing angular order, fragment starts at a
    have hiF : seg.interiorFacing = some true := by
      rw [hdec, decide_eq_true hpos]
    have hlt : endpointAngle O pos ang seg.a < endpointAngle O pos ang seg.b :=
      hord1 hpos
    have hmin : min (endpointAngle O pos ang seg.a) (endpointAngle O pos ang seg.b) =
        endpointAngle O pos ang seg.a := min_eq_left hlt.le
    have hmax : max (endpointAngle O pos ang seg.a) (endpointAngle O pos ang seg.b) =
        endpointAngle O pos ang seg.b := max_eq_right hlt.le
    rw [hmin] at hlo
    rw [hmax] at hhi
    simp only [hmin, hmax, max_eq_left hlo, min_eq_left hhi]
    rw [if_neg (not_le.2 hlt)]
    have hIv : subtractIntervals
        (endpointAngle O pos ang seg.a, endpointAngle O pos ang seg.b)
        ([] : List (ℚ × ℚ)) =
        [(endpointAngle O pos ang seg.a, endpointAngle O pos ang seg.b)] := by
      simp [subtractIntervals, List.insertionSort, subtractGo_nil, hlt]
    rw [hIv]
    rw [if_neg (by simp : ¬([(endpointAngle O pos ang seg.a,
      endpointAngle O pos ang seg.b)] : List (ℚ × ℚ)) = [])]
    simp only [List.map_cons, List.map_nil]
    rw [if_pos hlt.ne.symm]
    rw [sub_self, zero_div]
    rw [lerpVec2_zero]
    show [interpolateUOffset O.rsqrt seg.orig seg.core.a] = [seg.uOffset]
    rw [horigc]
    rw [interpolateUOffset_a O.rsqrt seg.core hiF]
    rfl

/-- Claim C6 (confirmed): a segment that the FOV clip leaves untouched
(one fragment with the segment's own endpoints), processed with no nearer
occluding geometry (it is the only ordered segment and the covered set is
empty), facing the viewer, unclipped (its original reference is itself),
with its endpoint angles inside the clamp range, yields exactly one
fragment whose u_offset equals the original segment's u_offset.  The
angular order of the endpoints is tied to the sign of the facing dot
product, as it is for the real atan2, and the square-root oracle is
consistent at the segment's squared length. -/
theorem c6_uoffset_roundtrip (O : RealOracles) (cfg : VisConfig)
    (root : BSPNode) (player : Player) (maxDist : ℚ) (seg : Segment)
    (horder : collectBspOrder player.pos root = [seg])
    (horig : seg.originalCore = none)
    (hface : isSegmentFacingPlayer seg player.pos = true)
    (hclip : clipSegmentToTriangleMulti seg
        (fovTriangle O player.pos player.angleRad
          (radiansQ O.degRad ((player.fovDeg + cfg.fovMarginDeg) / 2)) maxDist) =
      [seg.replaceAB seg.a seg.b])
    (hdot : facingDot seg player.pos ≠ 0)
    (hord1 : 0 < facingDot seg player.pos →
      endpointAngle O player.pos player.angleRad seg.a <
        endpointAngle O player.pos player.angleRad seg.b)
    (hord2 : facingDot seg player.pos < 0 →
      endpointAngle O player.pos player.angleRad seg.b <
        endpointAngle O player.pos player.angleRad seg.a)
    (hab : seg.a ≠ seg.b)
    (hlo : -(radiansQ O.degRad ((player.fovDeg + cfg.fovMarginDeg) / 2)) -
        radiansQ O.degRad cfg.fovMarginDeg ≤
      min (endpointAngle O player.pos player.angleRad seg.a)
        (endpointAngle O player.pos player.angleRad seg.b))
    (hhi : max (endpointAngle O player.pos player.angleRad seg.a)
        (endpointAngle O player.pos player.angleRad seg.b) ≤
      radiansQ O.degRad ((player.fovDeg + cfg.fovMarginDeg) / 2) +
        radiansQ O.degRad cfg.fovMarginDeg)
    (hlen : O.rsqrt ((seg.b.x - seg.a.x) * (seg.b.x - seg.a.x) +
        (seg.b.y - seg.a.y) * (seg.b.y - seg.a.y)) *
      O.rsqrt ((seg.b.x - seg.a.x) * (seg.b.x - seg.a.x) +
        (seg.b.y - seg.a.y) * (seg.b.y - seg.a.y)) =
      (seg.b.x - seg.a.x) * (seg.b.x - seg.a.x) +
        (seg.b.y - seg.a.y) * (seg.b.y - seg.a.y)) :
    (computeVisibleSegments O cfg root player (some maxDist) (some true)).map
      Segment.uOffset = [seg.uOffset] := by
  have h1 : computeVisibleSegments O cfg root player (some maxDist) (some true) =
      (processOrdered O true player.pos player.angleRad
        (radiansQ O.degRad ((player.fovDeg + cfg.fovMarginDeg) / 2))
        (radiansQ O.degRad cfg.fovMarginDeg) (maxDist * maxDist)
        (fovTriangle O player.pos player.angleRad
          (radiansQ O.degRad ((player.fovDeg + cfg.fovMarginDeg) / 2)) maxDist)
        (collectBspOrder player.pos root) []).map Prod.fst := rfl
  rw [h1, horder]
  have key := processClipped_noop_uoffset O player.pos player.angleRad
    (radiansQ O.degRad ((player.fovDeg + cfg.fovMarginDeg) / 2))
    (radiansQ O.degRad cfg.fovMarginDeg) seg horig hface hdot hord1 hord2 hab
    hlo hhi hlen
  simp only [processOrdered, processClippedList, hface, hclip]
  simp only [Bool.not_true, Bool.false_eq_true, if_false, if_true,
    List.append_nil]
  rw [List.map_map]
  exact key

/-! ### Concrete scene witnessing claim C6 -/

def c6wall : Segment := ⟨⟨⟨0, 0⟩, ⟨2, 0⟩, some true, 7, none, none, none, true⟩, none⟩

def c6atan (y x : ℚ) : ℚ :=
  if y = -1 ∧ x = -1 then -2356194 / 1000000
  else if y = -1 ∧ x = 1 then -785398 / 1000000
  else 0

def c6cos (x : ℚ) : ℚ := if x < -157/100 then -765/1000 else 766/1000

def c6sin (x : ℚ) : ℚ := if x < -157/100 then -644/1000 else -6428/10000

def c6rsqrt (q : ℚ) : ℚ := if q = 4 then 2 else 0

def c6O : RealOracles := ⟨c6atan, c6cos, c6sin, c6rsqrt, c7pi, c7rad⟩

def c6cfg : VisConfig := ⟨true, 10⟩

def c6player : Player := ⟨⟨1, 1⟩, -157/100, 90, 20⟩

def c6root : BSPNode := .node (some c6wall) [c6wall] .empty .empty

unseal Rat.add Rat.sub Rat.mul Rat.inv in
/-- Witness for claim C6 at a concrete scene: a single interior-facing
wall fully inside the FOV triangle of a viewer above it; the returned
fragment keeps the wall's u_offset 7. -/
theorem c6_uoffset_roundtrip_witness :
    isSegmentFacingPlayer c6wall c6player.pos = true ∧
    (computeVisibleSegments c6O c6cfg c6root c6player (some 20) (some true)).map
      Segment.uOffset = [c6wall.uOffset] :=
  ⟨by decide,
    c6_uoffset_roundtrip c6O c6cfg c6root c6player 20 c6wall (by decide)
      (by decide) (by decide) (by decide) (by decide) (by decide) (by decide)
      (by decide) (by decide) (by decide) (by decide)⟩

/-! ### Claim C5: total length conservation of the built tree

Lengths are real numbers (Segment.length calls math.sqrt); the measure is
defined over the reals on top of the rational embedding, while the build
itself stays computable. -/

/-- The real length of a segment, sqrt of the squared endpoint
difference. -/
noncomputable def segRealLength (s : Segment) : ℝ :=
  Real.sqrt (((s.b.x - s.a.x : ℚ) : ℝ) ^ 2 + ((s.b.y - s.a.y : ℚ) : ℝ) ^ 2)

/-- Sum of the real lengths of a segment list. -/
noncomputable def totalLength (segs : List Segment) : ℝ :=
  (segs.map segRealLength).sum

/-- Whether the recursive build with the given fuel never reaches the
depth guard with segments still in hand (no depth truncation). -/
def noDrop : List Segment → Nat → Bool
  | segs, 0 => segs.isEmpty
  | [], _ + 1 => true
  | p :: rest, gas + 1 =>
    let (f, b) := classifyAgainst p rest
    (if f = [] then true else noDrop f gas) &&
      (if b = [] then true else noDrop b gas)

theorem totalLength_nil : totalLength [] = 0 := rfl

theorem totalLength_cons (s : Segment) (l : List Segment) :
    totalLength (s :: l) = segRealLength s + totalLength l := by
  simp [totalLength]

theorem totalLength_append (l1 l2 : List Segment) :
    totalLength (l1 ++ l2) = totalLength l1 + totalLength l2 := by
  simp [totalLength]

theorem segRealLength_replaceSelf (s : Segment) :
    segRealLength s.replaceSelf = segRealLength s := rfl

theorem segRealLength_replaceAB (s t : Segment) :
    segRealLength (s.replaceAB t.a t.b) = segRealLength t := rfl

/-- Scaling both legs of a right triangle by t in [0, 1] splits the
hypotenuse length into the t-fraction and the (1 - t)-fraction. -/
theorem sqrt_halves (t X Y : ℝ) (ht0 : 0 ≤ t) (ht1 : t ≤ 1) :
    Real.sqrt ((t * X) ^ 2 + (t * Y) ^ 2) +
      Real.sqrt (((1 - t) * X) ^ 2 + ((1 - t) * Y) ^ 2) =
      Real.sqrt (X ^ 2 + Y ^ 2) := by
  have h1 : (t * X) ^ 2 + (t * Y) ^ 2 = t ^ 2 * (X ^ 2 + Y ^ 2) := by ring
  have h2 : ((1 - t) * X) ^ 2 + ((1 - t) * Y) ^ 2 =
      (1 - t) ^ 2 * (X ^ 2 + Y ^ 2) := by ring
  rw [h1, h2, Real.sqrt_mul (sq_nonneg t), Real.sqrt_mul (sq_nonneg (1 - t)),
    Real.sqrt_sq_eq_abs, Real.sqrt_sq_eq_abs, abs_of_nonneg ht0,
    abs_of_nonneg (by linarith)]
  ring

/-- The two halves split_segment builds at interpolation parameter
t in [0, 1] together have the real length of the whole segment. -/
theorem split_halves_length (s : Segment) (t : ℚ) (ht0 : 0 ≤ t)
    (ht1 : t ≤ 1) :
    segRealLength (mkSegmentDefault s.a
        ⟨s.a.x + t * (s.b.x - s.a.x), s.a.y + t * (s.b.y - s.a.y)⟩
        s.interiorFacing) +
      segRealLength (mkSegmentDefault
        ⟨s.a.x + t * (s.b.x - s.a.x), s.a.y + t * (s.b.y - s.a.y)⟩ s.b
        s.interiorFacing) = segRealLength s := by
  have ex1 : ((s.a.x + t * (s.b.x - s.a.x) - s.a.x : ℚ) : ℝ) =
      (t : ℝ) * ((s.b.x - s.a.x : ℚ) : ℝ) := by push_cast; ring
  have ey1 : ((s.a.y + t * (s.b.y - s.a.y) - s.a.y : ℚ) : ℝ) =
      (t : ℝ) * ((s.b.y - s.a.y : ℚ) : ℝ) := by push_cast; ring
  have ex2 : ((s.b.x - (s.a.x + t * (s.b.x - s.a.x)) : ℚ) : ℝ) =
      (1 - (t : ℝ)) * ((s.b.x - s.a.x : ℚ) : ℝ) := by push_cast; ring
  have ey2 : ((s.b.y - (s.a.y + t * (s.b.y - s.a.y)) : ℚ) : ℝ) =
      (1 - (t : ℝ)) * ((s.b.y - s.a.y : ℚ) : ℝ) := by push_cast; ring
  show Real.sqrt (((s.a.x + t * (s.b.x - s.a.x) - s.a.x : ℚ) : ℝ) ^ 2 +
      ((s.a.y + t * (s.b.y - s.a.y) - s.a.y : ℚ) : ℝ) ^ 2) +
    Real.sqrt (((s.b.x - (s.a.x + t * (s.b.x - s.a.x)) : ℚ) : ℝ) ^ 2 +
      ((s.b.y - (s.a.y + t * (s.b.y - s.a.y)) : ℚ) : ℝ) ^ 2) =
    Real.sqrt (((s.b.x - s.a.x : ℚ) : ℝ) ^ 2 + ((s.b.y - s.a.y : ℚ) : ℝ) ^ 2)
  rw [ex1, ey1, ex2, ey2]
  exact sqrt_halves (t : ℝ) _ _ (by exact_mod_cast ht0) (by exact_mod_cast ht1)

/-- split_segment conserves real length: the two halves of a straight
split at an interior parameter have lengths t and (1 - t) times the
whole. -/
theorem splitSegment_length (s : Segment) (a b : Vec2) :
    totalLength (splitSegment s a b).1 + totalLength (splitSegment s a b).2 =
      segRealLength s := by
  unfold splitSegment
  simp only []
  split
  · simp [totalLength_cons, totalLength_nil]
  · split
    · simp [totalLength_cons, totalLength_nil]
    · split
      · simp [totalLength_cons, totalLength_nil]
      · next hfr hbk hdenom =>
        -- strict split: the endpoints are on strictly opposite sides
        have hsides : (0 < lineSide s.a a b ∧ lineSide s.b a b < 0) ∨
            (lineSide s.a a b < 0 ∧ 0 < lineSide s.b a b) := by
          rcases not_and_or.1 hfr with h1 | h1 <;>
            rcases not_and_or.1 hbk with h2 | h2
          · exact absurd (lt_of_not_le h2) (not_lt.2 (lt_of_not_le h1).le)
          · exact Or.inr ⟨lt_of_not_le h1, lt_of_not_le h2⟩
          · exact Or.inl ⟨lt_of_not_le h2, lt_of_not_le h1⟩
          · exact absurd (lt_of_not_le h2) (not_lt.2 (lt_of_not_le h1).le)
        set T : ℚ := ((a.x - s.a.x) * (b.y - a.y) - (a.y - s.a.y) * (b.x - a.x)) /
            ((s.b.x - s.a.x) * (b.y - a.y) - (s.b.y - s.a.y) * (b.x - a.x))
            with hT
        have hu : T * (lineSide s.a a b - lineSide s.b a b) =
            lineSide s.a a b := by
          have e1 : lineSide s.a a b - lineSide s.b a b =
              (s.b.x - s.a.x) * (b.y - a.y) - (s.b.y - s.a.y) * (b.x - a.x) := by
            simp only [lineSide]; ring
          have e2 : lineSide s.a a b =
              (a.x - s.a.x) * (b.y - a.y) - (a.y - s.a.y) * (b.x - a.x) := by
            simp only [lineSide]; ring
          rw [e1]
          conv_rhs => rw [e2]
          rw [hT]
          exact div_mul_cancel₀ _ hdenom
        have hT0 : (0 : ℚ) ≤ T := by
          rcases hsides with ⟨h1, h2⟩ | ⟨h1, h2⟩ <;> nlinarith [hu]
        have hT1 : T ≤ 1 := by
          rcases hsides with ⟨h1, h2⟩ | ⟨h1, h2⟩ <;> nlinarith [hu]
        split
        · simp only [totalLength_cons, totalLength_nil, add_zero]
          exact split_halves_length s T hT0 hT1
        · simp only [totalLength_cons, totalLength_nil, add_zero]
          rw [add_comm]
          exact split_halves_length s T hT0 hT1

/-- The replace(a=..., b=...) copies classify builds do not change real
length, element by element. -/
theorem totalLength_map_replace (s : Segment) (l : List Segment) :
    totalLength (l.map fun part => s.replaceAB part.a part.b) =
      totalLength l := by
  induction l with
  | nil => rfl
  | cons x xs ih =>
    simp only [List.map_cons, totalLength_cons, ih, segRealLength_replaceAB]

/-- The classification loop conserves total real length: front plus back
add up to the classified input. -/
theorem classify_length (p : Segment) (rest : List Segment) :
    totalLength (classifyAgainst p rest).1 +
      totalLength (classifyAgainst p rest).2 = totalLength rest := by
  induction rest with
  | nil => simp [classifyAgainst, totalLength_nil]
  | cons s tl ih =>
    obtain ⟨fr, bk, hcl⟩ : ∃ fr bk, classifyAgainst p tl = (fr, bk) :=
      ⟨_, _, rfl⟩
    obtain ⟨fp, bp, hsp⟩ : ∃ fp bp, splitSegment s p.a p.b = (fp, bp) :=
      ⟨_, _, rfl⟩
    have hcons : classifyAgainst p (s :: tl) =
        ((fp.map fun part => s.replaceAB part.a part.b) ++ fr,
         (bp.map fun part => s.replaceAB part.a part.b) ++ bk) := by
      simp only [classifyAgainst, hcl, hsp]
    have hsplit := splitSegment_length s p.a p.b
    rw [hsp] at hsplit
    rw [hcl] at ih
    simp only [hcons, totalLength_append, totalLength_map_replace,
      totalLength_cons]
    simp only [hcl] at ih
    simp only [hsp] at hsplit
    linarith [ih, hsplit]

/-- When the depth guard is never hit with segments in hand, the build
conserves the total real length of the input segment list. -/
theorem buildRec_length : ∀ (gas : Nat) (segs : List Segment),
    noDrop segs gas = true →
    totalLength (treeSegments (buildRecursive segs gas)) = totalLength segs := by
  intro gas
  induction gas with
  | zero =>
    intro segs h
    simp only [noDrop, List.isEmpty_iff] at h
    subst h
    rfl
  | succ gas ih =>
    intro segs h
    cases segs with
    | nil => rfl
    | cons p rest =>
      obtain ⟨f, b, hcl⟩ : ∃ f b, classifyAgainst p rest = (f, b) :=
        ⟨_, _, rfl⟩
      simp only [noDrop, hcl, Bool.and_eq_true] at h
      have hbuild : buildRecursive (p :: rest) (gas + 1) =
          BSPNode.node (some p) [p.replaceSelf]
            (if f = [] then .empty else buildRecursive f gas)
            (if b = [] then .empty else buildRecursive b gas) := by
        simp only [buildRecursive, hcl]
      have hf : totalLength (treeSegments
          (if f = [] then BSPNode.empty else buildRecursive f gas)) =
          totalLength f := by
        by_cases hfe : f = []
        · rw [if_pos hfe, hfe]; rfl
        · rw [if_neg hfe]
          have h1 := h.1
          rw [if_neg hfe] at h1
          exact ih f h1
      have hb : totalLength (treeSegments
          (if b = [] then BSPNode.empty else buildRecursive b gas)) =
          totalLength b := by
        by_cases hbe : b = []
        · rw [if_pos hbe, hbe]; rfl
        · rw [if_neg hbe]
          have h2 := h.2
          rw [if_neg hbe] at h2
          exact ih b h2
      have hcls := classify_length p rest
      simp only [hcl] at hcls
      rw [hbuild]
      simp only [treeSegments, totalLength_append, totalLength_cons,
        totalLength_nil, segRealLength_replaceSelf, hf, hb]
      linarith [hcls]

unseal Rat.add Rat.sub Rat.mul Rat.inv in
/-- C5 (amended): BSPBuilder.build conserves the total real length of its
input provided the recursion never reaches the max_depth guard with
segments still unplaced (noDrop); split_segment itself always conserves
length exactly, so any loss comes only from depth truncation. -/
theorem c5_amended (maxDepth : Nat) (segs : List Segment)
    (h : noDrop segs (maxDepth + 1) = true) :
    totalLength (treeSegments (bspBuild maxDepth segs)) = totalLength segs :=
  buildRec_length (maxDepth + 1) segs h

/-- A single diagonal wall of real length 5. -/
def c5wit : Segment := mkSegmentDefault ⟨0, 0⟩ ⟨3, 4⟩ (some true)

unseal Rat.add Rat.sub Rat.mul Rat.inv in
/-- Witness for C5: a one-segment scene at max_depth 0 never hits the
depth guard, and the theorem applies to it. -/
theorem c5_amended_witness :
    noDrop [c5wit] (0 + 1) = true ∧
    totalLength (treeSegments (bspBuild 0 [c5wit])) = totalLength [c5wit] :=
  ⟨by decide, c5_amended 0 [c5wit] (by decide)⟩

/-- Three parallel vertical unit walls at x = 0, 1, 2. -/
def c5s0 : Segment := mkSegmentDefault ⟨0, 0⟩ ⟨0, 1⟩ (some true)

def c5s1 : Segment := mkSegmentDefault ⟨1, 0⟩ ⟨1, 1⟩ (some true)

def c5s2 : Segment := mkSegmentDefault ⟨2, 0⟩ ⟨2, 1⟩ (some true)

def c5segs : List Segment := [c5s0, c5s1, c5s2]

unseal Rat.add Rat.sub Rat.mul Rat.inv in
/-- Counterexample to the unconditional claim: with max_depth 1 the three
parallel unit walls all classify to the back child in a chain, the third
is dropped at the depth guard, and total length falls from 3 to 2. -/
theorem c5_counterexample :
    totalLength (treeSegments (bspBuild 1 c5segs)) ≠ totalLength c5segs := by
  have htree : treeSegments (bspBuild 1 c5segs) =
      [c5s0.replaceSelf, c5s1.replaceSelf] := by decide
  have h0 : segRealLength c5s0 = 1 := by
    show Real.sqrt ((((0 : ℚ) - 0 : ℚ) : ℝ) ^ 2 +
      (((1 : ℚ) - 0 : ℚ) : ℝ) ^ 2) = 1
    norm_num
  have h1 : segRealLength c5s1 = 1 := by
    show Real.sqrt ((((1 : ℚ) - 1 : ℚ) : ℝ) ^ 2 +
      (((1 : ℚ) - 0 : ℚ) : ℝ) ^ 2) = 1
    norm_num
  have h2 : segRealLength c5s2 = 1 := by
    show Real.sqrt ((((2 : ℚ) - 2 : ℚ) : ℝ) ^ 2 +
      (((1 : ℚ) - 0 : ℚ) : ℝ) ^ 2) = 1
    norm_num
  rw [htree]
  show totalLength [c5s0.replaceSelf, c5s1.replaceSelf] ≠
    totalLength [c5s0, c5s1, c5s2]
  simp only [totalLength_cons, totalLength_nil, segRealLength_replaceSelf,
    h0, h1, h2]
  norm_num

/-! ### Claim C4: radius monotonicity of collision detection

The quadratic moving_circle_point_collision solves is named by its
coefficients: a, b, c and the discriminant, as the code computes them. -/

/-- The coefficient a = d . d of the sweep quadratic. -/
def pcA (p1 p2 : Vec2) : ℚ :=
  (p2.x - p1.x) * (p2.x - p1.x) + (p2.y - p1.y) * (p2.y - p1.y)

/-- The coefficient b = 2 f . d of the sweep quadratic against point q. -/
def pcB (p1 p2 q : Vec2) : ℚ :=
  2 * ((p1.x - q.x) * (p2.x - p1.x) + (p1.y - q.y) * (p2.y - p1.y))

/-- The coefficient c = f . f - radius^2 of the sweep quadratic. -/
def pcC (p1 q : Vec2) (radius : ℚ) : ℚ :=
  (p1.x - q.x) * (p1.x - q.x) + (p1.y - q.y) * (p1.y - q.y) - radius * radius

/-- The discriminant b^2 - 4 a c of the sweep quadratic. -/
def pcDisc (p1 p2 q : Vec2) (radius : ℚ) : ℚ :=
  pcB p1 p2 q * pcB p1 p2 q - 4 * pcA p1 p2 * pcC p1 q radius

/-- seg_len2: the squared length of the wall segment q1-q2. -/
def sLen2 (q1 q2 : Vec2) : ℚ :=
  (q2.x - q1.x) * (q2.x - q1.x) + (q2.y - q1.y) * (q2.y - q1.y)

/-- The unnormalised signed distance of p to the wall's supporting line:
the dot product of p - q1 with the (+1)-sign normal (-(q2.y - q1.y),
q2.x - q1.x). -/
def sCross (p q1 q2 : Vec2) : ℚ :=
  (p.x - q1.x) * (-(q2.y - q1.y)) + (p.y - q1.y) * (q2.x - q1.x)

theorem minByKey_isSome_iff (key : α → ℚ) (l : List α) :
    (minByKey key l).isSome = true ↔ l ≠ [] := by
  cases l <;> simp [minByKey]

/-- A nonempty candidate list means one of the four candidate computations
produced a point. -/
theorem colPoints_cases (rsqrt : ℚ → ℚ) (p1 p2 q1 q2 : Vec2) (r : ℚ)
    (h : colPoints rsqrt p1 p2 q1 q2 r ≠ []) :
    (edgeCandidate rsqrt p1 p2 q1 q2 r 1).isSome = true ∨
    (edgeCandidate rsqrt p1 p2 q1 q2 r (-1)).isSome = true ∨
    (movingCirclePointCollision rsqrt p1 p2 q1 r).isSome = true ∨
    (movingCirclePointCollision rsqrt p1 p2 q2 r).isSome = true := by
  by_contra hall
  push_neg at hall
  obtain ⟨h1, h2, h3, h4⟩ := hall
  apply h
  unfold colPoints
  have e1 : edgeCandidate rsqrt p1 p2 q1 q2 r 1 = none := by
    cases hE : edgeCandidate rsqrt p1 p2 q1 q2 r 1 with
    | none => rfl
    | some v => exact absurd (by rw [hE]; rfl) h1
  have e2 : edgeCandidate rsqrt p1 p2 q1 q2 r (-1) = none := by
    cases hE : edgeCandidate rsqrt p1 p2 q1 q2 r (-1) with
    | none => rfl
    | some v => exact absurd (by rw [hE]; rfl) h2
  have e3 : movingCirclePointCollision rsqrt p1 p2 q1 r = none := by
    cases hE : movingCirclePointCollision rsqrt p1 p2 q1 r with
    | none => rfl
    | some v => exact absurd (by rw [hE]; rfl) h3
  have e4 : movingCirclePointCollision rsqrt p1 p2 q2 r = none := by
    cases hE : movingCirclePointCollision rsqrt p1 p2 q2 r with
    | none => rfl
    | some v => exact absurd (by rw [hE]; rfl) h4
  rw [e1, e2, e3, e4]
  rfl

/-- One firing candidate makes the candidate list nonempty. -/
theorem colPoints_ne_of (rsqrt : ℚ → ℚ) (p1 p2 q1 q2 : Vec2) (r : ℚ)
    (h : (edgeCandidate rsqrt p1 p2 q1 q2 r 1).isSome = true ∨
      (edgeCandidate rsqrt p1 p2 q1 q2 r (-1)).isSome = true ∨
      (movingCirclePointCollision rsqrt p1 p2 q1 r).isSome = true ∨
      (movingCirclePointCollision rsqrt p1 p2 q2 r).isSome = true) :
    colPoints rsqrt p1 p2 q1 q2 r ≠ [] := by
  rcases h with h | h | h | h <;>
    obtain ⟨v, hv⟩ := Option.isSome_iff_exists.1 h <;>
    intro hnil <;> simp [colPoints, hv] at hnil

/-- For a non-degenerate wall, segment_moving_circle_collision returns a
point exactly when the candidate list is nonempty. -/
theorem smc_isSome_iff (rsqrt : ℚ → ℚ) (p1 p2 q1 q2 : Vec2) (r : ℚ)
    (hL : ¬ sLen2 q1 q2 = 0) :
    (segmentMovingCircleCollision rsqrt p1 p2 q1 q2 r).isSome = true ↔
      colPoints rsqrt p1 p2 q1 q2 r ≠ [] := by
  unfold segmentMovingCircleCollision
  simp only []
  rw [if_neg (show ¬((q2.x - q1.x) * (q2.x - q1.x) +
    (q2.y - q1.y) * (q2.y - q1.y) = 0) from hL)]
  exact minByKey_isSome_iff _ _

/-- When the start point is strictly outside the r-band of the wall's
supporting line, its distance to any point of that line exceeds r; in
particular c = f . f - r^2 is positive for both wall endpoints.  The
hypothesis hvn says q is a base point of the wall's line (its normal
component of p1 - q is the same cross value). -/
theorem cpos_of_band (rsqrt : ℚ → ℚ) (p1 q q1 q2 : Vec2) (r : ℚ)
    (hr : 0 ≤ r) (hL : 0 < sLen2 q1 q2)
    (hN : rsqrt (sLen2 q1 q2) * rsqrt (sLen2 q1 q2) = sLen2 q1 q2 ∧
      0 ≤ rsqrt (sLen2 q1 q2))
    (hband : r * rsqrt (sLen2 q1 q2) < |sCross p1 q1 q2|)
    (hvn : (p1.x - q.x) * (-(q2.y - q1.y)) + (p1.y - q.y) * (q2.x - q1.x) =
      sCross p1 q1 q2) :
    0 < pcC p1 q r := by
  have hlag : ((p1.x - q.x) * (q2.x - q1.x) + (p1.y - q.y) * (q2.y - q1.y)) ^ 2 +
      ((p1.x - q.x) * (-(q2.y - q1.y)) + (p1.y - q.y) * (q2.x - q1.x)) ^ 2 =
      ((p1.x - q.x) * (p1.x - q.x) + (p1.y - q.y) * (p1.y - q.y)) *
        sLen2 q1 q2 := by
    simp only [sLen2]; ring
  have h0 : 0 ≤ r * rsqrt (sLen2 q1 q2) := mul_nonneg hr hN.2
  have hsq : (r * rsqrt (sLen2 q1 q2)) * (r * rsqrt (sLen2 q1 q2)) <
      sCross p1 q1 q2 * sCross p1 q1 q2 := by
    have h1 := mul_self_lt_mul_self h0 hband
    rwa [abs_mul_abs_self] at h1
  rw [hvn] at hlag
  simp only [pcC]
  nlinarith [hlag, hsq, hN.1, hL,
    sq_nonneg ((p1.x - q.x) * (q2.x - q1.x) + (p1.y - q.y) * (q2.y - q1.y))]

/-- Sufficient condition for moving_circle_point_collision to return a
point: the quadratic is positive at 0 and nonpositive at some tc in
[0, 1], and rsqrt is an exact square root at the discriminant.  Then the
first root lies in (0, tc] and the code's first t-check passes. -/
theorem mcpc_isSome_of (rsqrt : ℚ → ℚ) (p1 p2 q : Vec2) (r tc : ℚ)
    (ha : 0 < pcA p1 p2) (hc : 0 < pcC p1 q r)
    (hex : 0 ≤ pcDisc p1 p2 q r →
      rsqrt (pcDisc p1 p2 q r) * rsqrt (pcDisc p1 p2 q r) = pcDisc p1 p2 q r ∧
        0 ≤ rsqrt (pcDisc p1 p2 q r))
    (htc0 : 0 ≤ tc) (htc1 : tc ≤ 1)
    (hval : pcA p1 p2 * tc * tc + pcB p1 p2 q * tc + pcC p1 q r ≤ 0) :
    (movingCirclePointCollision rsqrt p1 p2 q r).isSome = true := by
  have h4 : 4 * pcA p1 p2 *
      (pcA p1 p2 * tc * tc + pcB p1 p2 q * tc + pcC p1 q r) =
      (2 * pcA p1 p2 * tc + pcB p1 p2 q) ^ 2 - pcDisc p1 p2 q r := by
    simp only [pcDisc]; ring
  have h5 : 4 * pcA p1 p2 *
      (pcA p1 p2 * tc * tc + pcB p1 p2 q * tc + pcC p1 q r) ≤ 0 := by
    nlinarith [ha, hval]
  have hdisc0 : 0 ≤ pcDisc p1 p2 q r := by
    nlinarith [h4, h5, sq_nonneg (2 * pcA p1 p2 * tc + pcB p1 p2 q)]
  obtain ⟨hs2, hs0⟩ := hex hdisc0
  have htcpos : 0 < tc := by
    rcases eq_or_lt_of_le htc0 with h | h
    · exfalso
      rw [← h] at hval
      nlinarith [hval, hc]
    · exact h
  have hB : pcB p1 p2 q < 0 := by
    nlinarith [hval, hc, mul_pos ha (mul_pos htcpos htcpos), htcpos]
  have hsum : 0 < rsqrt (pcDisc p1 p2 q r) - pcB p1 p2 q := by linarith
  have hsleB : rsqrt (pcDisc p1 p2 q r) ≤ -pcB p1 p2 q := by
    nlinarith [hs2, mul_pos ha hc, hsum]
  have hsq : (2 * pcA p1 p2 * tc + pcB p1 p2 q) ^ 2 ≤
      rsqrt (pcDisc p1 p2 q r) * rsqrt (pcDisc p1 p2 q r) := by
    linarith [h4, h5, hs2]
  have hslo : -(2 * pcA p1 p2 * tc + pcB p1 p2 q) ≤
      rsqrt (pcDisc p1 p2 q r) := by
    nlinarith [hsq, hs0]
  have h2A : (0 : ℚ) < 2 * pcA p1 p2 := by linarith
  have hct1 : 0 ≤ (-pcB p1 p2 q - rsqrt (pcDisc p1 p2 q r)) /
      (2 * pcA p1 p2) := div_nonneg (by linarith) (by linarith)
  have hct2 : (-pcB p1 p2 q - rsqrt (pcDisc p1 p2 q r)) /
      (2 * pcA p1 p2) ≤ 1 := by
    rw [div_le_one h2A]
    nlinarith [hslo, htc1, ha]
  show (if pcDisc p1 p2 q r < 0 ∨ pcA p1 p2 = 0 then none
    else
      if 0 ≤ (-pcB p1 p2 q - rsqrt (pcDisc p1 p2 q r)) / (2 * pcA p1 p2) ∧
          (-pcB p1 p2 q - rsqrt (pcDisc p1 p2 q r)) / (2 * pcA p1 p2) ≤ 1 then
        some ⟨p1.x + (p2.x - p1.x) *
            ((-pcB p1 p2 q - rsqrt (pcDisc p1 p2 q r)) / (2 * pcA p1 p2)),
          p1.y + (p2.y - p1.y) *
            ((-pcB p1 p2 q - rsqrt (pcDisc p1 p2 q r)) / (2 * pcA p1 p2))⟩
      else
        if 0 ≤ (-pcB p1 p2 q + rsqrt (pcDisc p1 p2 q r)) / (2 * pcA p1 p2) ∧
            (-pcB p1 p2 q + rsqrt (pcDisc p1 p2 q r)) / (2 * pcA p1 p2) ≤ 1 then
          some ⟨p1.x + (p2.x - p1.x) *
              ((-pcB p1 p2 q + rsqrt (pcDisc p1 p2 q r)) / (2 * pcA p1 p2)),
            p1.y + (p2.y - p1.y) *
              ((-pcB p1 p2 q + rsqrt (pcDisc p1 p2 q r)) / (2 * pcA p1 p2))⟩
        else none : Option Vec2).isSome = true
  rw [if_neg (by
    rintro (h | h)
    · linarith
    · exact absurd h (ne_of_gt ha))]
  rw [if_pos ⟨hct1, hct2⟩]
  rfl

/-- What a returned point of moving_circle_point_collision means when
rsqrt is exact at the discriminant: some t in [0, 1] is an exact root of
the sweep quadratic. -/
theorem mcpc_root_of_some (rsqrt : ℚ → ℚ) (p1 p2 q : Vec2) (r : ℚ)
    (hex : 0 ≤ pcDisc p1 p2 q r →
      rsqrt (pcDisc p1 p2 q r) * rsqrt (pcDisc p1 p2 q r) = pcDisc p1 p2 q r ∧
        0 ≤ rsqrt (pcDisc p1 p2 q r))
    (h : (movingCirclePointCollision rsqrt p1 p2 q r).isSome = true) :
    ∃ t, 0 ≤ t ∧ t ≤ 1 ∧
      pcA p1 p2 * t * t + pcB p1 p2 q * t + pcC p1 q r = 0 := by
  have hgoal : movingCirclePointCollision rsqrt p1 p2 q r =
      (if pcDisc p1 p2 q r < 0 ∨ pcA p1 p2 = 0 then none
      else
        if 0 ≤ (-pcB p1 p2 q - rsqrt (pcDisc p1 p2 q r)) / (2 * pcA p1 p2) ∧
            (-pcB p1 p2 q - rsqrt (pcDisc p1 p2 q r)) / (2 * pcA p1 p2) ≤ 1 then
          some ⟨p1.x + (p2.x - p1.x) *
              ((-pcB p1 p2 q - rsqrt (pcDisc p1 p2 q r)) / (2 * pcA p1 p2)),
            p1.y + (p2.y - p1.y) *
              ((-pcB p1 p2 q - rsqrt (pcDisc p1 p2 q r)) / (2 * pcA p1 p2))⟩
        else
          if 0 ≤ (-pcB p1 p2 q + rsqrt (pcDisc p1 p2 q r)) / (2 * pcA p1 p2) ∧
              (-pcB p1 p2 q + rsqrt (pcDisc p1 p2 q r)) / (2 * pcA p1 p2) ≤ 1 then
            some ⟨p1.x + (p2.x - p1.x) *
                ((-pcB p1 p2 q + rsqrt (pcDisc p1 p2 q r)) / (2 * pcA p1 p2)),
              p1.y + (p2.y - p1.y) *
                ((-pcB p1 p2 q + rsqrt (pcDisc p1 p2 q r)) / (2 * pcA p1 p2))⟩
          else none : Option Vec2) := rfl
  rw [hgoal] at h
  split at h
  · simp at h
  · next hnot =>
    have hA : pcA p1 p2 ≠ 0 := fun he => hnot (Or.inr he)
    have hd0 : 0 ≤ pcDisc p1 p2 q r :=
      not_lt.1 fun hl => hnot (Or.inl hl)
    obtain ⟨hs2, _⟩ := hex hd0
    split at h
    · next hcnd =>
      refine ⟨(-pcB p1 p2 q - rsqrt (pcDisc p1 p2 q r)) / (2 * pcA p1 p2),
        hcnd.1, hcnd.2, ?_⟩
      have h2A : (2 : ℚ) * pcA p1 p2 ≠ 0 := by
        intro he
        exact hA (by linarith [mul_eq_zero.1 he])
      have ht : 2 * pcA p1 p2 *
          ((-pcB p1 p2 q - rsqrt (pcDisc p1 p2 q r)) / (2 * pcA p1 p2)) =
          -pcB p1 p2 q - rsqrt (pcDisc p1 p2 q r) := by
        field_simp
      have key : 4 * pcA p1 p2 *
          (pcA p1 p2 * ((-pcB p1 p2 q - rsqrt (pcDisc p1 p2 q r)) /
              (2 * pcA p1 p2)) * ((-pcB p1 p2 q - rsqrt (pcDisc p1 p2 q r)) /
              (2 * pcA p1 p2)) +
            pcB p1 p2 q * ((-pcB p1 p2 q - rsqrt (pcDisc p1 p2 q r)) /
              (2 * pcA p1 p2)) + pcC p1 q r) = 0 := by
        have hexp : ∀ u : ℚ, 2 * pcA p1 p2 * u = -pcB p1 p2 q - rsqrt (pcDisc p1 p2 q r) →
            4 * pcA p1 p2 * (pcA p1 p2 * u * u + pcB p1 p2 q * u + pcC p1 q r) =
              rsqrt (pcDisc p1 p2 q r) * rsqrt (pcDisc p1 p2 q r) -
                (pcB p1 p2 q * pcB p1 p2 q - 4 * pcA p1 p2 * pcC p1 q r) := by
          intro u hu
          linear_combination (2 * pcA p1 p2 * u + pcB p1 p2 q -
            rsqrt (pcDisc p1 p2 q r)) * hu
        rw [hexp _ ht, hs2]
        simp only [pcDisc]
        ring
      have h4A : (4 : ℚ) * pcA p1 p2 ≠ 0 := by
        intro he
        exact hA (by linarith [mul_eq_zero.1 he])
      exact (mul_eq_zero.1 key).resolve_left h4A
    · split at h
      · next hcnd =>
        refine ⟨(-pcB p1 p2 q + rsqrt (pcDisc p1 p2 q r)) / (2 * pcA p1 p2),
          hcnd.1, hcnd.2, ?_⟩
        have h2A : (2 : ℚ) * pcA p1 p2 ≠ 0 := by
          intro he
          exact hA (by linarith [mul_eq_zero.1 he])
        have ht : 2 * pcA p1 p2 *
            ((-pcB p1 p2 q + rsqrt (pcDisc p1 p2 q r)) / (2 * pcA p1 p2)) =
            -pcB p1 p2 q + rsqrt (pcDisc p1 p2 q r) := by
          field_simp
        have key : 4 * pcA p1 p2 *
            (pcA p1 p2 * ((-pcB p1 p2 q + rsqrt (pcDisc p1 p2 q r)) /
                (2 * pcA p1 p2)) * ((-pcB p1 p2 q + rsqrt (pcDisc p1 p2 q r)) /
                (2 * pcA p1 p2)) +
              pcB p1 p2 q * ((-pcB p1 p2 q + rsqrt (pcDisc p1 p2 q r)) /
                (2 * pcA p1 p2)) + pcC p1 q r) = 0 := by
          have hexp : ∀ u : ℚ, 2 * pcA p1 p2 * u = -pcB p1 p2 q + rsqrt (pcDisc p1 p2 q r) →
              4 * pcA p1 p2 * (pcA p1 p2 * u * u + pcB p1 p2 q * u + pcC p1 q r) =
                rsqrt (pcDisc p1 p2 q r) * rsqrt (pcDisc p1 p2 q r) -
                  (pcB p1 p2 q * pcB p1 p2 q - 4 * pcA p1 p2 * pcC p1 q r) := by
            intro u hu
            linear_combination (2 * pcA p1 p2 * u + pcB p1 p2 q +
              rsqrt (pcDisc p1 p2 q r)) * hu
          rw [hexp _ ht, hs2]
          simp only [pcDisc]
          ring
        have h4A : (4 : ℚ) * pcA p1 p2 ≠ 0 := by
          intro he
          exact hA (by linarith [mul_eq_zero.1 he])
        exact (mul_eq_zero.1 key).resolve_left h4A
      · simp at h

/-- The crossing parameter the edge test computes, cleared of the
normalisation: (dist0 - r) / (dist0 - dist1) over the unnormalised cross
values. -/
def edgeT (rsqrt : ℚ → ℚ) (p1 p2 q1 q2 : Vec2) (r ns : ℚ) : ℚ :=
  (ns * sCross p1 q1 q2 - r * rsqrt (sLen2 q1 q2)) /
    (ns * sCross p1 q1 q2 - ns * sCross p2 q1 q2)

/-- What a firing edge candidate means, in unnormalised terms: a crossing
parameter tc in [0, 1] at which the normal component equals the signed
radius offset, whose foot lies on the wall, with the endpoints' normal
components straddling one of the two radius offsets. -/
theorem edgeCandidate_facts (rsqrt : ℚ → ℚ) (p1 p2 q1 q2 : Vec2) (r ns : ℚ)
    (hL : 0 < sLen2 q1 q2)
    (hN : rsqrt (sLen2 q1 q2) * rsqrt (sLen2 q1 q2) = sLen2 q1 q2 ∧
      0 ≤ rsqrt (sLen2 q1 q2))
    (hns : ns = 1 ∨ ns = -1)
    (h : (edgeCandidate rsqrt p1 p2 q1 q2 r ns).isSome = true) :
    ∃ tc, 0 ≤ tc ∧ tc ≤ 1 ∧
      ns * (sCross p1 q1 q2 + tc * (sCross p2 q1 q2 - sCross p1 q1 q2)) =
        r * rsqrt (sLen2 q1 q2) ∧
      (0 ≤ (p1.x + (p2.x - p1.x) * tc - q1.x) * (q2.x - q1.x) +
          (p1.y + (p2.y - p1.y) * tc - q1.y) * (q2.y - q1.y) ∧
        (p1.x + (p2.x - p1.x) * tc - q1.x) * (q2.x - q1.x) +
          (p1.y + (p2.y - p1.y) * tc - q1.y) * (q2.y - q1.y) ≤ sLen2 q1 q2) ∧
      ((r * rsqrt (sLen2 q1 q2) < sCross p1 q1 q2 ∧
          sCross p2 q1 q2 < r * rsqrt (sLen2 q1 q2)) ∨
        (sCross p1 q1 q2 < -(r * rsqrt (sLen2 q1 q2)) ∧
          -(r * rsqrt (sLen2 q1 q2)) < sCross p2 q1 q2)) := by
  obtain ⟨hN1, hN2⟩ := hN
  have harg : (ns * -(q2.y - q1.y)) * (ns * -(q2.y - q1.y)) +
      (ns * (q2.x - q1.x)) * (ns * (q2.x - q1.x)) = sLen2 q1 q2 := by
    rcases hns with rfl | rfl <;> simp only [sLen2] <;> ring
  unfold edgeCandidate at h
  simp only [] at h
  rw [harg] at h
  split at h
  · exact absurd h (by simp)
  · next hnz =>
    have hNpos : 0 < rsqrt (sLen2 q1 q2) := lt_of_le_of_ne hN2 (Ne.symm hnz)
    have e0 : ((p1.x - q1.x) * (ns * -(q2.y - q1.y) / rsqrt (sLen2 q1 q2)) +
        (p1.y - q1.y) * (ns * (q2.x - q1.x) / rsqrt (sLen2 q1 q2))) *
          rsqrt (sLen2 q1 q2) = ns * sCross p1 q1 q2 := by
      simp only [sCross]
      field_simp
      ring
    have e1 : ((p2.x - q1.x) * (ns * -(q2.y - q1.y) / rsqrt (sLen2 q1 q2)) +
        (p2.y - q1.y) * (ns * (q2.x - q1.x) / rsqrt (sLen2 q1 q2))) *
          rsqrt (sLen2 q1 q2) = ns * sCross p2 q1 q2 := by
      simp only [sCross]
      field_simp
      ring
    split at h
    · next hbig =>
      split at h
      · next hT01 =>
        split at h
        · next hproj =>
          have hden : (p1.x - q1.x) * (ns * -(q2.y - q1.y) / rsqrt (sLen2 q1 q2)) +
              (p1.y - q1.y) * (ns * (q2.x - q1.x) / rsqrt (sLen2 q1 q2)) -
              ((p2.x - q1.x) * (ns * -(q2.y - q1.y) / rsqrt (sLen2 q1 q2)) +
                (p2.y - q1.y) * (ns * (q2.x - q1.x) / rsqrt (sLen2 q1 q2))) ≠ 0 := by
            rcases hbig with ⟨hb1, hb2⟩ | ⟨hb1, hb2⟩ <;> intro he <;> linarith
          have htmul : ((p1.x - q1.x) * (ns * -(q2.y - q1.y) / rsqrt (sLen2 q1 q2)) +
              (p1.y - q1.y) * (ns * (q2.x - q1.x) / rsqrt (sLen2 q1 q2)) - r) /
              ((p1.x - q1.x) * (ns * -(q2.y - q1.y) / rsqrt (sLen2 q1 q2)) +
                (p1.y - q1.y) * (ns * (q2.x - q1.x) / rsqrt (sLen2 q1 q2)) -
                ((p2.x - q1.x) * (ns * -(q2.y - q1.y) / rsqrt (sLen2 q1 q2)) +
                  (p2.y - q1.y) * (ns * (q2.x - q1.x) / rsqrt (sLen2 q1 q2)))) *
              ((p1.x - q1.x) * (ns * -(q2.y - q1.y) / rsqrt (sLen2 q1 q2)) +
                (p1.y - q1.y) * (ns * (q2.x - q1.x) / rsqrt (sLen2 q1 q2)) -
                ((p2.x - q1.x) * (ns * -(q2.y - q1.y) / rsqrt (sLen2 q1 q2)) +
                  (p2.y - q1.y) * (ns * (q2.x - q1.x) / rsqrt (sLen2 q1 q2)))) =
              (p1.x - q1.x) * (ns * -(q2.y - q1.y) / rsqrt (sLen2 q1 q2)) +
                (p1.y - q1.y) * (ns * (q2.x - q1.x) / rsqrt (sLen2 q1 q2)) - r :=
            div_mul_cancel₀ _ hden
          refine ⟨_, hT01.1, hT01.2, ?_, ?_, ?_⟩
          · linear_combination (-(rsqrt (sLen2 q1 q2))) * htmul +
              (((p1.x - q1.x) * (ns * -(q2.y - q1.y) / rsqrt (sLen2 q1 q2)) +
                (p1.y - q1.y) * (ns * (q2.x - q1.x) / rsqrt (sLen2 q1 q2)) - r) /
                ((p1.x - q1.x) * (ns * -(q2.y - q1.y) / rsqrt (sLen2 q1 q2)) +
                  (p1.y - q1.y) * (ns * (q2.x - q1.x) / rsqrt (sLen2 q1 q2)) -
                  ((p2.x - q1.x) * (ns * -(q2.y - q1.y) / rsqrt (sLen2 q1 q2)) +
                    (p2.y - q1.y) * (ns * (q2.x - q1.x) / rsqrt (sLen2 q1 q2)))) - 1) *
                e0 +
              (-(((p1.x - q1.x) * (ns * -(q2.y - q1.y) / rsqrt (sLen2 q1 q2)) +
                (p1.y - q1.y) * (ns * (q2.x - q1.x) / rsqrt (sLen2 q1 q2)) - r) /
                ((p1.x - q1.x) * (ns * -(q2.y - q1.y) / rsqrt (sLen2 q1 q2)) +
                  (p1.y - q1.y) * (ns * (q2.x - q1.x) / rsqrt (sLen2 q1 q2)) -
                  ((p2.x - q1.x) * (ns * -(q2.y - q1.y) / rsqrt (sLen2 q1 q2)) +
                    (p2.y - q1.y) * (ns * (q2.x - q1.x) / rsqrt (sLen2 q1 q2)))))) *
                e1
          · have hL2 : (0 : ℚ) < (q2.x - q1.x) * (q2.x - q1.x) +
                (q2.y - q1.y) * (q2.y - q1.y) := hL
            constructor
            · rcases div_nonneg_iff.1 hproj.1 with ⟨hg, _⟩ | ⟨_, hneg⟩
              · exact hg
              · linarith
            · exact (div_le_one hL2).1 hproj.2
          · rcases hns with rfl | rfl <;>
              rcases hbig with ⟨hb1, hb2⟩ | ⟨hb1, hb2⟩
            · exact Or.inl ⟨by linarith [mul_lt_mul_of_pos_right hb1 hNpos, e0],
                by linarith [mul_lt_mul_of_pos_right hb2 hNpos, e1]⟩
            · exact Or.inr ⟨by linarith [mul_lt_mul_of_pos_right hb1 hNpos, e0],
                by linarith [mul_lt_mul_of_pos_right hb2 hNpos, e1]⟩
            · exact Or.inr ⟨by linarith [mul_lt_mul_of_pos_right hb1 hNpos, e0],
                by linarith [mul_lt_mul_of_pos_right hb2 hNpos, e1]⟩
            · exact Or.inl ⟨by linarith [mul_lt_mul_of_pos_right hb1 hNpos, e0],
                by linarith [mul_lt_mul_of_pos_right hb2 hNpos, e1]⟩
        · exact absurd h (by simp)
      · exact absurd h (by simp)
    · exact absurd h (by simp)

/-- Sufficient condition for the edge candidate to fire: the endpoints'
normal components straddle the radius offset on the ns side, and the foot
of the crossing parameter lies on the wall. -/
theorem edgeCandidate_isSome_of (rsqrt : ℚ → ℚ) (p1 p2 q1 q2 : Vec2) (r ns : ℚ)
    (hns : ns = 1 ∨ ns = -1)
    (hL : 0 < sLen2 q1 q2)
    (hN : rsqrt (sLen2 q1 q2) * rsqrt (sLen2 q1 q2) = sLen2 q1 q2 ∧
      0 ≤ rsqrt (sLen2 q1 q2))
    (hb0 : r * rsqrt (sLen2 q1 q2) < ns * sCross p1 q1 q2)
    (hb1 : ns * sCross p2 q1 q2 < r * rsqrt (sLen2 q1 q2))
    (hg0 : 0 ≤ (p1.x + (p2.x - p1.x) * edgeT rsqrt p1 p2 q1 q2 r ns - q1.x) *
        (q2.x - q1.x) +
      (p1.y + (p2.y - p1.y) * edgeT rsqrt p1 p2 q1 q2 r ns - q1.y) *
        (q2.y - q1.y))
    (hg1 : (p1.x + (p2.x - p1.x) * edgeT rsqrt p1 p2 q1 q2 r ns - q1.x) *
        (q2.x - q1.x) +
      (p1.y + (p2.y - p1.y) * edgeT rsqrt p1 p2 q1 q2 r ns - q1.y) *
        (q2.y - q1.y) ≤ sLen2 q1 q2) :
    (edgeCandidate rsqrt p1 p2 q1 q2 r ns).isSome = true := by
  obtain ⟨hN1, hN2⟩ := hN
  have harg : (ns * -(q2.y - q1.y)) * (ns * -(q2.y - q1.y)) +
      (ns * (q2.x - q1.x)) * (ns * (q2.x - q1.x)) = sLen2 q1 q2 := by
    rcases hns with rfl | rfl <;> simp only [sLen2] <;> ring
  have hNpos : 0 < rsqrt (sLen2 q1 q2) := by
    rcases eq_or_lt_of_le hN2 with h0 | h0
    · exfalso
      rw [← h0] at hN1
      simp only [zero_mul] at hN1
      linarith
    · exact h0
  have e0 : ((p1.x - q1.x) * (ns * -(q2.y - q1.y) / rsqrt (sLen2 q1 q2)) +
      (p1.y - q1.y) * (ns * (q2.x - q1.x) / rsqrt (sLen2 q1 q2))) *
        rsqrt (sLen2 q1 q2) = ns * sCross p1 q1 q2 := by
    simp only [sCross]
    field_simp
    ring
  have e1 : ((p2.x - q1.x) * (ns * -(q2.y - q1.y) / rsqrt (sLen2 q1 q2)) +
      (p2.y - q1.y) * (ns * (q2.x - q1.x) / rsqrt (sLen2 q1 q2))) *
        rsqrt (sLen2 q1 q2) = ns * sCross p2 q1 q2 := by
    simp only [sCross]
    field_simp
    ring
  have hd0r : r < (p1.x - q1.x) * (ns * -(q2.y - q1.y) / rsqrt (sLen2 q1 q2)) +
      (p1.y - q1.y) * (ns * (q2.x - q1.x) / rsqrt (sLen2 q1 q2)) := by
    have h1 : r * rsqrt (sLen2 q1 q2) <
        ((p1.x - q1.x) * (ns * -(q2.y - q1.y) / rsqrt (sLen2 q1 q2)) +
          (p1.y - q1.y) * (ns * (q2.x - q1.x) / rsqrt (sLen2 q1 q2))) *
          rsqrt (sLen2 q1 q2) := by
      rw [e0]; exact hb0
    exact (mul_lt_mul_right hNpos).1 h1
  have hd1r : (p2.x - q1.x) * (ns * -(q2.y - q1.y) / rsqrt (sLen2 q1 q2)) +
      (p2.y - q1.y) * (ns * (q2.x - q1.x) / rsqrt (sLen2 q1 q2)) < r := by
    have h1 : ((p2.x - q1.x) * (ns * -(q2.y - q1.y) / rsqrt (sLen2 q1 q2)) +
        (p2.y - q1.y) * (ns * (q2.x - q1.x) / rsqrt (sLen2 q1 q2))) *
          rsqrt (sLen2 q1 q2) < r * rsqrt (sLen2 q1 q2) := by
      rw [e1]; exact hb1
    exact (mul_lt_mul_right hNpos).1 h1
  have hden : (0 : ℚ) <
      (p1.x - q1.x) * (ns * -(q2.y - q1.y) / rsqrt (sLen2 q1 q2)) +
        (p1.y - q1.y) * (ns * (q2.x - q1.x) / rsqrt (sLen2 q1 q2)) -
      ((p2.x - q1.x) * (ns * -(q2.y - q1.y) / rsqrt (sLen2 q1 q2)) +
        (p2.y - q1.y) * (ns * (q2.x - q1.x) / rsqrt (sLen2 q1 q2))) := by
    linarith
  have hden2 : ns * sCross p1 q1 q2 - ns * sCross p2 q1 q2 ≠ 0 :=
    ne_of_gt (by linarith)
  have hL2 : (0 : ℚ) < (q2.x - q1.x) * (q2.x - q1.x) +
      (q2.y - q1.y) * (q2.y - q1.y) := hL
  have hTeq : ((p1.x - q1.x) * (ns * -(q2.y - q1.y) / rsqrt (sLen2 q1 q2)) +
      (p1.y - q1.y) * (ns * (q2.x - q1.x) / rsqrt (sLen2 q1 q2)) - r) /
      ((p1.x - q1.x) * (ns * -(q2.y - q1.y) / rsqrt (sLen2 q1 q2)) +
        (p1.y - q1.y) * (ns * (q2.x - q1.x) / rsqrt (sLen2 q1 q2)) -
        ((p2.x - q1.x) * (ns * -(q2.y - q1.y) / rsqrt (sLen2 q1 q2)) +
          (p2.y - q1.y) * (ns * (q2.x - q1.x) / rsqrt (sLen2 q1 q2)))) =
      edgeT rsqrt p1 p2 q1 q2 r ns := by
    unfold edgeT
    rw [div_eq_div_iff (ne_of_gt hden) hden2]
    linear_combination (r - ((p2.x - q1.x) * (ns * -(q2.y - q1.y) /
        rsqrt (sLen2 q1 q2)) +
        (p2.y - q1.y) * (ns * (q2.x - q1.x) / rsqrt (sLen2 q1 q2)))) * e0 +
      (((p1.x - q1.x) * (ns * -(q2.y - q1.y) / rsqrt (sLen2 q1 q2)) +
        (p1.y - q1.y) * (ns * (q2.x - q1.x) / rsqrt (sLen2 q1 q2))) - r) * e1
  have hT0 : (0 : ℚ) ≤
      ((p1.x - q1.x) * (ns * -(q2.y - q1.y) / rsqrt (sLen2 q1 q2)) +
        (p1.y - q1.y) * (ns * (q2.x - q1.x) / rsqrt (sLen2 q1 q2)) - r) /
      ((p1.x - q1.x) * (ns * -(q2.y - q1.y) / rsqrt (sLen2 q1 q2)) +
        (p1.y - q1.y) * (ns * (q2.x - q1.x) / rsqrt (sLen2 q1 q2)) -
        ((p2.x - q1.x) * (ns * -(q2.y - q1.y) / rsqrt (sLen2 q1 q2)) +
          (p2.y - q1.y) * (ns * (q2.x - q1.x) / rsqrt (sLen2 q1 q2)))) :=
    div_nonneg (by linarith) (le_of_lt hden)
  have hT1 : ((p1.x - q1.x) * (ns * -(q2.y - q1.y) / rsqrt (sLen2 q1 q2)) +
      (p1.y - q1.y) * (ns * (q2.x - q1.x) / rsqrt (sLen2 q1 q2)) - r) /
      ((p1.x - q1.x) * (ns * -(q2.y - q1.y) / rsqrt (sLen2 q1 q2)) +
        (p1.y - q1.y) * (ns * (q2.x - q1.x) / rsqrt (sLen2 q1 q2)) -
        ((p2.x - q1.x) * (ns * -(q2.y - q1.y) / rsqrt (sLen2 q1 q2)) +
          (p2.y - q1.y) * (ns * (q2.x - q1.x) / rsqrt (sLen2 q1 q2)))) ≤ 1 := by
    rw [div_le_one hden]
    linarith
  unfold edgeCandidate
  simp only []
  rw [harg]
  rw [if_neg (ne_of_gt hNpos)]
  rw [if_pos (Or.inl ⟨hd0r, hd1r⟩)]
  rw [if_pos ⟨hT0, hT1⟩]
  rw [hTeq]
  rw [if_pos ⟨div_nonneg hg0 (le_of_lt hL2), (div_le_one hL2).2 hg1⟩]
  rfl

/-- An affine function whose values at t2 and tc lie in a band stays in
that band at any tb between t2 and tc. -/
theorem interp_bound (X0 Xd t2 tc tb c2 cc lo hi : ℚ)
    (h2 : X0 + t2 * Xd = c2) (hc : X0 + tc * Xd = cc)
    (hb2 : lo ≤ c2 ∧ c2 ≤ hi) (hbc : lo ≤ cc ∧ cc ≤ hi)
    (htb : (tb - t2) * (tb - tc) ≤ 0) :
    lo ≤ X0 + tb * Xd ∧ X0 + tb * Xd ≤ hi := by
  rcases mul_nonpos_iff.1 htb with ⟨h1, h1'⟩ | ⟨h1, h1'⟩ <;>
    rcases le_or_lt 0 Xd with hXd | hXd <;>
    constructor <;>
    nlinarith [h2, hc, hb2.1, hb2.2, hbc.1, hbc.2, h1, h1', hXd]

set_option maxHeartbeats 1000000 in
/-- The core of the monotonicity argument for an edge-detected collision:
if some crossing parameter tc in [0, 1] has its normal component within
the r1 band and its foot on the wall, while the start point is strictly
beyond the r2 band on the sign-sigma side, then the r2 sweep detects the
wall: either the r2 crossing's foot is still on the wall (edge candidate),
or the foot leaves through an endpoint whose r2 circle test fires. -/
theorem edge_to_r2 (rsqrt : ℚ → ℚ) (p1 p2 q1 q2 : Vec2) (r1 r2 σ tc : ℚ)
    (hσ : σ = 1 ∨ σ = -1)
    (hr1 : 0 ≤ r1) (hrlt : r1 < r2)
    (hL : 0 < sLen2 q1 q2)
    (ha : 0 < pcA p1 p2)
    (hN : rsqrt (sLen2 q1 q2) * rsqrt (sLen2 q1 q2) = sLen2 q1 q2 ∧
      0 ≤ rsqrt (sLen2 q1 q2))
    (hband : r2 * rsqrt (sLen2 q1 q2) < σ * sCross p1 q1 q2)
    (hd1 : 0 ≤ pcDisc p1 p2 q1 r2 →
      rsqrt (pcDisc p1 p2 q1 r2) * rsqrt (pcDisc p1 p2 q1 r2) =
        pcDisc p1 p2 q1 r2 ∧ 0 ≤ rsqrt (pcDisc p1 p2 q1 r2))
    (hd2 : 0 ≤ pcDisc p1 p2 q2 r2 →
      rsqrt (pcDisc p1 p2 q2 r2) * rsqrt (pcDisc p1 p2 q2 r2) =
        pcDisc p1 p2 q2 r2 ∧ 0 ≤ rsqrt (pcDisc p1 p2 q2 r2))
    (htc0 : 0 ≤ tc) (htc1 : tc ≤ 1)
    (hCa : -(r1 * rsqrt (sLen2 q1 q2)) ≤
      σ * (sCross p1 q1 q2 + tc * (sCross p2 q1 q2 - sCross p1 q1 q2)))
    (hCb : σ * (sCross p1 q1 q2 + tc * (sCross p2 q1 q2 - sCross p1 q1 q2)) ≤
      r1 * rsqrt (sLen2 q1 q2))
    (hGa : 0 ≤ (p1.x + (p2.x - p1.x) * tc - q1.x) * (q2.x - q1.x) +
      (p1.y + (p2.y - p1.y) * tc - q1.y) * (q2.y - q1.y))
    (hGb : (p1.x + (p2.x - p1.x) * tc - q1.x) * (q2.x - q1.x) +
      (p1.y + (p2.y - p1.y) * tc - q1.y) * (q2.y - q1.y) ≤ sLen2 q1 q2) :
    colPoints rsqrt p1 p2 q1 q2 r2 ≠ [] := by
  obtain ⟨hN1, hN2⟩ := hN
  set L := sLen2 q1 q2 with hLdef
  set N := rsqrt L with hNdef
  set c0 := sCross p1 q1 q2 with hc0def
  set c1 := sCross p2 q1 q2 with hc1def
  set G0 := (p1.x - q1.x) * (q2.x - q1.x) + (p1.y - q1.y) * (q2.y - q1.y)
    with hG0def
  set Gd := (p2.x - p1.x) * (q2.x - q1.x) + (p2.y - p1.y) * (q2.y - q1.y)
    with hGddef
  clear_value L N c0 c1 G0 Gd
  have hLraw : 0 < sLen2 q1 q2 := by rw [← hLdef]; exact hL
  have hN1raw : rsqrt (sLen2 q1 q2) * rsqrt (sLen2 q1 q2) = sLen2 q1 q2 := by
    rw [← hLdef, ← hNdef]; exact hN1
  have hN2raw : 0 ≤ rsqrt (sLen2 q1 q2) := by
    rw [← hLdef, ← hNdef]; exact hN2
  have hGtceq : (p1.x + (p2.x - p1.x) * tc - q1.x) * (q2.x - q1.x) +
      (p1.y + (p2.y - p1.y) * tc - q1.y) * (q2.y - q1.y) = G0 + tc * Gd := by
    rw [hG0def, hGddef]; ring
  rw [hGtceq] at hGa hGb
  have hNpos : 0 < N := by
    rcases eq_or_lt_of_le hN2 with h0 | h0
    · exfalso
      rw [← h0] at hN1
      simp only [zero_mul] at hN1
      linarith
    · exact h0
  have hr2 : 0 ≤ r2 := by linarith
  have hr1N : 0 ≤ r1 * N := mul_nonneg hr1 hN2
  have hr2N : 0 ≤ r2 * N := mul_nonneg hr2 hN2
  have hrN : r1 * N < r2 * N := mul_lt_mul_of_pos_right hrlt hNpos
  have htcpos : 0 < tc := by
    rcases eq_or_lt_of_le htc0 with h0 | h0
    · exfalso
      rw [← h0] at hCb
      simp only [zero_mul, add_zero] at hCb
      linarith
    · exact h0
  have h1tc : (0 : ℚ) ≤ 1 - tc := by linarith
  have hprod1 : 0 ≤ (1 - tc) * (σ * c0 - r2 * N) :=
    mul_nonneg h1tc (by linarith)
  have hc1lt : σ * c1 < r2 * N := by
    nlinarith only [hCb, hprod1, htcpos, hrN]
  have hbandraw : r2 * rsqrt (sLen2 q1 q2) < σ * sCross p1 q1 q2 := by
    rw [← hLdef, ← hNdef, ← hc0def]; exact hband
  have hc1raw : σ * sCross p2 q1 q2 < r2 * rsqrt (sLen2 q1 q2) := by
    rw [← hLdef, ← hNdef, ← hc1def]; exact hc1lt
  have hden : 0 < σ * c0 - σ * c1 := by linarith
  set t2 := (σ * c0 - r2 * N) / (σ * c0 - σ * c1) with ht2d
  clear_value t2
  have hTE : edgeT rsqrt p1 p2 q1 q2 r2 σ = t2 := by
    rw [ht2d]
    unfold edgeT
    rw [← hLdef, ← hNdef, ← hc0def, ← hc1def]
  have ht2mul : t2 * (σ * c0 - σ * c1) = σ * c0 - r2 * N := by
    rw [ht2d]
    exact div_mul_cancel₀ _ (ne_of_gt hden)
  have ht20 : 0 ≤ t2 := by
    rw [ht2d]
    exact div_nonneg (by linarith) (le_of_lt hden)
  have ht21 : t2 ≤ 1 := by
    rw [ht2d, div_le_one hden]
    linarith
  have hCt2 : σ * (c0 + t2 * (c1 - c0)) = r2 * N := by
    linear_combination (-1 : ℚ) * ht2mul
  have hCbounds : -(r2 * N) ≤ c0 + t2 * (c1 - c0) ∧
      c0 + t2 * (c1 - c0) ≤ r2 * N := by
    rcases hσ with rfl | rfl
    · constructor <;> linarith [hCt2, hr2N]
    · constructor <;> linarith [hCt2, hr2N]
  have hCcbounds : -(r2 * N) ≤ c0 + tc * (c1 - c0) ∧
      c0 + tc * (c1 - c0) ≤ r2 * N := by
    rcases hσ with rfl | rfl
    · constructor <;> linarith [hCa, hCb, hrN, hr1N]
    · constructor <;> linarith [hCa, hCb, hrN, hr1N]
  have habsraw : r2 * rsqrt (sLen2 q1 q2) < |sCross p1 q1 q2| := by
    rw [← hLdef, ← hNdef, ← hc0def]
    rcases hσ with rfl | rfl
    · linarith [le_abs_self c0, hband]
    · linarith [neg_abs_le c0, hband]
  set Gt2 := G0 + t2 * Gd with hGt2d
  clear_value Gt2
  by_cases hg : 0 ≤ Gt2 ∧ Gt2 ≤ L
  · -- the r2 edge candidate itself fires
    have hgraw : (p1.x + (p2.x - p1.x) * edgeT rsqrt p1 p2 q1 q2 r2 σ - q1.x) *
        (q2.x - q1.x) +
        (p1.y + (p2.y - p1.y) * edgeT rsqrt p1 p2 q1 q2 r2 σ - q1.y) *
        (q2.y - q1.y) = Gt2 := by
      rw [hTE, hGt2d, hG0def, hGddef]; ring
    have hgL : Gt2 ≤ sLen2 q1 q2 := by rw [← hLdef]; exact hg.2
    have hE : (edgeCandidate rsqrt p1 p2 q1 q2 r2 σ).isSome = true :=
      edgeCandidate_isSome_of rsqrt p1 p2 q1 q2 r2 σ hσ hLraw
        ⟨hN1raw, hN2raw⟩ hbandraw hc1raw (by rw [hgraw]; exact hg.1)
        (by rw [hgraw]; exact hgL)
    apply colPoints_ne_of
    rcases hσ with rfl | rfl
    · exact Or.inl hE
    · exact Or.inr (Or.inl hE)
  · rcases not_and_or.1 hg with hg2 | hg2
    · -- the foot leaves through q1: its r2 circle test fires
      have hGt2neg : Gt2 < 0 := lt_of_not_le hg2
      have hdiffpos : 0 < (tc - t2) * Gd := by
        have he : (tc - t2) * Gd = (G0 + tc * Gd) - (G0 + t2 * Gd) := by ring
        rw [he, ← hGt2d]
        linarith
      have hGdne : Gd ≠ 0 := by
        intro h0
        rw [h0, mul_zero] at hdiffpos
        exact lt_irrefl 0 hdiffpos
      set tb := -G0 / Gd with htbd
      clear_value tb
      have htbmul : tb * Gd = -G0 := by
        rw [htbd]
        exact div_mul_cancel₀ _ hGdne
      have hGtb : G0 + tb * Gd = 0 := by rw [htbmul]; ring
      have hkey : ((tb - t2) * (tb - tc)) * (Gd * Gd) =
          (G0 + t2 * Gd) * (G0 + tc * Gd) := by
        linear_combination (tb * Gd - G0 - tc * Gd - t2 * Gd) * htbmul
      have hprod : (G0 + t2 * Gd) * (G0 + tc * Gd) ≤ 0 :=
        mul_nonpos_iff.2 (Or.inr ⟨by linarith [hGt2neg, hGt2d], hGa⟩)
      have hGd2 : 0 < Gd * Gd := mul_self_pos.2 hGdne
      have hbtw : (tb - t2) * (tb - tc) ≤ 0 := by
        by_contra hX
        push_neg at hX
        have hcontra := mul_pos hX hGd2
        rw [hkey] at hcontra
        linarith
      have htb01 : 0 ≤ tb ∧ tb ≤ 1 := by
        rcases mul_nonpos_iff.1 hbtw with ⟨ha1, ha2⟩ | ⟨ha1, ha2⟩ <;>
          constructor <;> linarith
      have hCtb := interp_bound c0 (c1 - c0) t2 tc tb (c0 + t2 * (c1 - c0))
        (c0 + tc * (c1 - c0)) (-(r2 * N)) (r2 * N) rfl rfl hCbounds
        hCcbounds hbtw
      have hquad : (pcA p1 p2 * tb * tb + pcB p1 p2 q1 * tb +
          pcC p1 q1 r2 + r2 * r2) * L =
          (G0 + tb * Gd) ^ 2 + (c0 + tb * (c1 - c0)) ^ 2 := by
        rw [hLdef, hG0def, hGddef, hc0def, hc1def]
        simp only [pcA, pcB, pcC, sLen2, sCross]
        ring
      rw [hGtb] at hquad
      have hS2 : (c0 + tb * (c1 - c0)) * (c0 + tb * (c1 - c0)) ≤
          (r2 * N) * (r2 * N) := by
        nlinarith only [hCtb.1, hCtb.2]
      have hr2NL : (r2 * N) * (r2 * N) = r2 * r2 * L := by
        linear_combination (r2 * r2) * hN1
      have hVL : (pcA p1 p2 * tb * tb + pcB p1 p2 q1 * tb +
          pcC p1 q1 r2) * L ≤ 0 := by
        linarith only [hquad, hS2, hr2NL]
      have hvalq1 : pcA p1 p2 * tb * tb + pcB p1 p2 q1 * tb +
          pcC p1 q1 r2 ≤ 0 := by
        by_contra hV
        push_neg at hV
        have hcontra := mul_pos hV hL
        linarith only [hcontra, hVL]
      have hc1pos : 0 < pcC p1 q1 r2 :=
        cpos_of_band rsqrt p1 q1 q1 q2 r2 hr2 hLraw ⟨hN1raw, hN2raw⟩
          habsraw rfl
      exact colPoints_ne_of _ _ _ _ _ _ (Or.inr (Or.inr (Or.inl
        (mcpc_isSome_of rsqrt p1 p2 q1 r2 tb ha hc1pos hd1 htb01.1 htb01.2
          hvalq1))))
    · -- the foot leaves through q2: its r2 circle test fires
      have hGt2gt : L < Gt2 := lt_of_not_le hg2
      have hdiffneg : (tc - t2) * Gd < 0 := by
        have he : (tc - t2) * Gd = (G0 + tc * Gd) - (G0 + t2 * Gd) := by ring
        rw [he, ← hGt2d]
        linarith
      have hGdne : Gd ≠ 0 := by
        intro h0
        rw [h0, mul_zero] at hdiffneg
        exact lt_irrefl 0 hdiffneg
      set tb := (L - G0) / Gd with htbd
      clear_value tb
      have htbmul : tb * Gd = L - G0 := by
        rw [htbd]
        exact div_mul_cancel₀ _ hGdne
      have hGtb : G0 + tb * Gd = L := by rw [htbmul]; ring
      have hkey : ((tb - t2) * (tb - tc)) * (Gd * Gd) =
          (L - (G0 + t2 * Gd)) * (L - (G0 + tc * Gd)) := by
        linear_combination (tb * Gd + L - G0 - t2 * Gd - tc * Gd) * htbmul
      have hprod : (L - (G0 + t2 * Gd)) * (L - (G0 + tc * Gd)) ≤ 0 :=
        mul_nonpos_iff.2 (Or.inr ⟨by linarith [hGt2gt, hGt2d],
          by linarith [hGb]⟩)
      have hGd2 : 0 < Gd * Gd := mul_self_pos.2 hGdne
      have hbtw : (tb - t2) * (tb - tc) ≤ 0 := by
        by_contra hX
        push_neg at hX
        have hcontra := mul_pos hX hGd2
        rw [hkey] at hcontra
        linarith
      have htb01 : 0 ≤ tb ∧ tb ≤ 1 := by
        rcases mul_nonpos_iff.1 hbtw with ⟨ha1, ha2⟩ | ⟨ha1, ha2⟩ <;>
          constructor <;> linarith
      have hCtb := interp_bound c0 (c1 - c0) t2 tc tb (c0 + t2 * (c1 - c0))
        (c0 + tc * (c1 - c0)) (-(r2 * N)) (r2 * N) rfl rfl hCbounds
        hCcbounds hbtw
      have hquad : (pcA p1 p2 * tb * tb + pcB p1 p2 q2 * tb +
          pcC p1 q2 r2 + r2 * r2) * L =
          (G0 + tb * Gd - L) ^ 2 + (c0 + tb * (c1 - c0)) ^ 2 := by
        rw [hLdef, hG0def, hGddef, hc0def, hc1def]
        simp only [pcA, pcB, pcC, sLen2, sCross]
        ring
      rw [hGtb] at hquad
      have hS2 : (c0 + tb * (c1 - c0)) * (c0 + tb * (c1 - c0)) ≤
          (r2 * N) * (r2 * N) := by
        nlinarith only [hCtb.1, hCtb.2]
      have hr2NL : (r2 * N) * (r2 * N) = r2 * r2 * L := by
        linear_combination (r2 * r2) * hN1
      have hVL : (pcA p1 p2 * tb * tb + pcB p1 p2 q2 * tb +
          pcC p1 q2 r2) * L ≤ 0 := by
        linarith only [hquad, hS2, hr2NL]
      have hvalq2 : pcA p1 p2 * tb * tb + pcB p1 p2 q2 * tb +
          pcC p1 q2 r2 ≤ 0 := by
        by_contra hV
        push_neg at hV
        have hcontra := mul_pos hV hL
        linarith only [hcontra, hVL]
      have hc2pos : 0 < pcC p1 q2 r2 :=
        cpos_of_band rsqrt p1 q2 q1 q2 r2 hr2 hLraw ⟨hN1raw, hN2raw⟩
          habsraw (by simp only [sCross]; ring)
      exact colPoints_ne_of _ _ _ _ _ _ (Or.inr (Or.inr (Or.inr
        (mcpc_isSome_of rsqrt p1 p2 q2 r2 tb ha hc2pos hd2 htb01.1 htb01.2
          hvalq2))))

/-- C4 (amended): per-wall radius monotonicity of
segment_moving_circle_collision.  For a non-degenerate wall and a moving
sweep, when the start point lies strictly outside the r2 band of the
wall's supporting line and rsqrt is an exact square root at the five
values the detector feeds it, a collision detected at radius r1 <= r2 is
still detected at radius r2.  Without the band hypothesis the claim is
false: c4_counterexample starts inside the widened band and the r2 sweep
reports no collision at all. -/
theorem c4_amended (rsqrt : ℚ → ℚ) (p1 p2 q1 q2 : Vec2) (r1 r2 : ℚ)
    (hr1 : 0 ≤ r1) (hr12 : r1 ≤ r2)
    (hL : 0 < sLen2 q1 q2)
    (ha : 0 < pcA p1 p2)
    (hN : rsqrt (sLen2 q1 q2) * rsqrt (sLen2 q1 q2) = sLen2 q1 q2 ∧
      0 ≤ rsqrt (sLen2 q1 q2))
    (hband : r2 * rsqrt (sLen2 q1 q2) < |sCross p1 q1 q2|)
    (hd1r1 : 0 ≤ pcDisc p1 p2 q1 r1 →
      rsqrt (pcDisc p1 p2 q1 r1) * rsqrt (pcDisc p1 p2 q1 r1) =
        pcDisc p1 p2 q1 r1 ∧ 0 ≤ rsqrt (pcDisc p1 p2 q1 r1))
    (hd2r1 : 0 ≤ pcDisc p1 p2 q2 r1 →
      rsqrt (pcDisc p1 p2 q2 r1) * rsqrt (pcDisc p1 p2 q2 r1) =
        pcDisc p1 p2 q2 r1 ∧ 0 ≤ rsqrt (pcDisc p1 p2 q2 r1))
    (hd1r2 : 0 ≤ pcDisc p1 p2 q1 r2 →
      rsqrt (pcDisc p1 p2 q1 r2) * rsqrt (pcDisc p1 p2 q1 r2) =
        pcDisc p1 p2 q1 r2 ∧ 0 ≤ rsqrt (pcDisc p1 p2 q1 r2))
    (hd2r2 : 0 ≤ pcDisc p1 p2 q2 r2 →
      rsqrt (pcDisc p1 p2 q2 r2) * rsqrt (pcDisc p1 p2 q2 r2) =
        pcDisc p1 p2 q2 r2 ∧ 0 ≤ rsqrt (pcDisc p1 p2 q2 r2))
    (hsome : (segmentMovingCircleCollision rsqrt p1 p2 q1 q2 r1).isSome = true) :
    (segmentMovingCircleCollision rsqrt p1 p2 q1 q2 r2).isSome = true := by
  by_cases hreq : r1 = r2
  · subst hreq
    exact hsome
  have hrlt : r1 < r2 := lt_of_le_of_ne hr12 hreq
  have hr2 : 0 ≤ r2 := le_trans hr1 hr12
  have hr1N : 0 ≤ r1 * rsqrt (sLen2 q1 q2) := mul_nonneg hr1 hN.2
  have hLne : ¬ sLen2 q1 q2 = 0 := ne_of_gt hL
  rw [smc_isSome_iff rsqrt p1 p2 q1 q2 r2 hLne]
  have hcol := (smc_isSome_iff rsqrt p1 p2 q1 q2 r1 hLne).1 hsome
  rcases colPoints_cases rsqrt p1 p2 q1 q2 r1 hcol with hcand | hcand | hcand | hcand
  · obtain ⟨tc, htc0, htc1, hC, ⟨hGa, hGb⟩, _⟩ :=
      edgeCandidate_facts rsqrt p1 p2 q1 q2 r1 1 hL hN (Or.inl rfl) hcand
    rcases lt_abs.1 hband with hb | hb
    · exact edge_to_r2 rsqrt p1 p2 q1 q2 r1 r2 1 tc (Or.inl rfl) hr1 hrlt hL
        ha hN (by linarith) hd1r2 hd2r2 htc0 htc1 (by linarith [hC])
        (by linarith [hC]) hGa hGb
    · exact edge_to_r2 rsqrt p1 p2 q1 q2 r1 r2 (-1) tc (Or.inr rfl) hr1 hrlt
        hL ha hN (by linarith) hd1r2 hd2r2 htc0 htc1 (by linarith [hC])
        (by linarith [hC]) hGa hGb
  · obtain ⟨tc, htc0, htc1, hC, ⟨hGa, hGb⟩, _⟩ :=
      edgeCandidate_facts rsqrt p1 p2 q1 q2 r1 (-1) hL hN (Or.inr rfl) hcand
    rcases lt_abs.1 hband with hb | hb
    · exact edge_to_r2 rsqrt p1 p2 q1 q2 r1 r2 1 tc (Or.inl rfl) hr1 hrlt hL
        ha hN (by linarith) hd1r2 hd2r2 htc0 htc1 (by linarith [hC])
        (by linarith [hC]) hGa hGb
    · exact edge_to_r2 rsqrt p1 p2 q1 q2 r1 r2 (-1) tc (Or.inr rfl) hr1 hrlt
        hL ha hN (by linarith) hd1r2 hd2r2 htc0 htc1 (by linarith [hC])
        (by linarith [hC]) hGa hGb
  · obtain ⟨t, ht0, ht1, hroot⟩ := mcpc_root_of_some rsqrt p1 p2 q1 r1 hd1r1 hcand
    apply colPoints_ne_of
    refine Or.inr (Or.inr (Or.inl ?_))
    refine mcpc_isSome_of rsqrt p1 p2 q1 r2 t ha ?_ hd1r2 ht0 ht1 ?_
    · exact cpos_of_band rsqrt p1 q1 q1 q2 r2 hr2 hL hN hband rfl
    · have hcc : pcC p1 q1 r2 = pcC p1 q1 r1 - (r2 * r2 - r1 * r1) := by
        simp only [pcC]; ring
      have hsq : r1 * r1 ≤ r2 * r2 := mul_self_le_mul_self hr1 hr12
      linarith [hroot, hcc, hsq]
  · obtain ⟨t, ht0, ht1, hroot⟩ := mcpc_root_of_some rsqrt p1 p2 q2 r1 hd2r1 hcand
    apply colPoints_ne_of
    refine Or.inr (Or.inr (Or.inr ?_))
    refine mcpc_isSome_of rsqrt p1 p2 q2 r2 t ha ?_ hd2r2 ht0 ht1 ?_
    · exact cpos_of_band rsqrt p1 q2 q1 q2 r2 hr2 hL hN hband
        (by simp only [sCross]; ring)
    · have hcc : pcC p1 q2 r2 = pcC p1 q2 r1 - (r2 * r2 - r1 * r1) := by
        simp only [pcC]; ring
      have hsq : r1 * r1 ≤ r2 * r2 := mul_self_le_mul_self hr1 hr12
      linarith [hroot, hcc, hsq]

unseal Rat.add Rat.sub Rat.mul Rat.inv in
/-- Witness for C4: horizontal wall (0,0)-(10,0), vertical sweep from
(5, 3) to (5, 1/2), radii 1 and 2; the start is 3 > 2 away from the
wall's line, every discriminant the detector meets is negative, and the
oracle ratSqrt is exact at seg_len2 = 100. -/
theorem c4_amended_witness :
    (0 : ℚ) ≤ 1 ∧ (1 : ℚ) ≤ 2 ∧
    (segmentMovingCircleCollision ratSqrt ⟨5, 3⟩ ⟨5, 1/2⟩ ⟨0, 0⟩ ⟨10, 0⟩
      2).isSome = true :=
  ⟨by decide, by decide,
    c4_amended ratSqrt ⟨5, 3⟩ ⟨5, 1/2⟩ ⟨0, 0⟩ ⟨10, 0⟩ 1 2 (by decide)
      (by decide) (by decide) (by decide) (by decide) (by decide) (by decide)
      (by decide) (by decide) (by decide) (by decide)⟩

/-- The counterexample scene: one solid horizontal wall in a BSP of
depth 0. -/
def c4wall : Segment := mkSegmentDefault ⟨0, 0⟩ ⟨10, 0⟩ (some true)

def c4root : BSPNode := bspBuild 0 [c4wall]

unseal Rat.add Rat.sub Rat.mul Rat.inv in
/-- C4 counterexample to the unconditional claim: with the same wall,
start (5, 3) and end (5, 1/2), radius 1 detects contact but radius 4
detects nothing -- the start lies inside the widened band, the strict
crossing test fails for both normals, and both endpoint discriminants are
negative -- so find_first_collision loses its collision when the radius
grows. -/
theorem c4_counterexample :
    (1 : ℚ) ≤ 4 ∧
    (segmentMovingCircleCollision ratSqrt ⟨5, 3⟩ ⟨5, 1/2⟩ ⟨0, 0⟩ ⟨10, 0⟩
      1).isSome = true ∧
    (segmentMovingCircleCollision ratSqrt ⟨5, 3⟩ ⟨5, 1/2⟩ ⟨0, 0⟩ ⟨10, 0⟩
      4).isSome = false ∧
    (findFirstCollision ratSqrt none c4root ⟨5, 3⟩ ⟨5, 1/2⟩ 1).1.isSome =
      true ∧
    (findFirstCollision ratSqrt none c4root ⟨5, 3⟩ ⟨5, 1/2⟩ 4).1.isSome =
      false := by
  refine ⟨by decide, by decide, by decide, by decide, by decide⟩

end Xoom
